import Mathlib

/-!
Verification of the table-aware Markdown reformatter of the file-converter
server (`src/index.ts`).  The pipeline functions `cleanMarkerOutput`,
`improvedCleanMarkerOutput`, `cleanTableLine`, `formatTableRegion`,
`cleanRegularLine` and `applyGlobalCleanups` are embedded shallowly over
`List Char` / `String`, with JavaScript numbers modelled by `ℚ` (all
quantities involved are small integers and exact averages, for which IEEE
doubles agree with exact rational arithmetic) and the JavaScript regex
replacements implemented as explicit scanners with the engine's
leftmost-match, greedy-with-backtracking semantics.  The whitespace class
`\s` is modelled by its ASCII fragment.
-/

set_option maxHeartbeats 1000000

namespace FileConv

/-- Whitespace characters of the JavaScript regex class `\s` (and of
`String.prototype.trim`), restricted to the ASCII fragment. -/
def jsWs (c : Char) : Bool :=
  c = ' ' || c = '\t' || c = '\n' || c = '\r' || c = '\x0b' || c = '\x0c'

/-- JavaScript `String.prototype.trim` on a character list. -/
def jsTrim (l : List Char) : List Char :=
  ((l.dropWhile jsWs).reverse.dropWhile jsWs).reverse

/-- Number of `|` characters in a line: `(line.match(/\|/g) || []).length`. -/
def countPipes (l : List Char) : Nat := l.count '|'

/-- The line classifier of `improvedCleanMarkerOutput`:
`const isTableLine = (line.match(/\|/g) || []).length >= 2;`. -/
def isTableLine (l : List Char) : Bool := decide (2 ≤ countPipes l)

/-- The region-scanning loop of `improvedCleanMarkerOutput` (step 1).
`i` is the index of the first line of the remaining list, the `Option Nat`
is `currentTableStart` (`none` exactly when `inTable` is `false`, an
invariant of the source loop), and the accumulator is the `tableRegions`
array built so far; regions are inclusive `[start, end]` pairs exactly as
pushed by the source.  The `[]`-with-`some` case is the post-loop flush
`tableRegions.push([currentTableStart, lines.length - 1])`. -/
def segLoop : List (List Char) → Nat → Option Nat → List (Nat × Nat) → List (Nat × Nat)
  | [], _, none, acc => acc
  | [], n, some st, acc => acc ++ [(st, n - 1)]
  | l :: ls, i, none, acc =>
    if isTableLine l then segLoop ls (i + 1) (some i) acc
    else segLoop ls (i + 1) none acc
  | l :: ls, i, some st, acc =>
    if isTableLine l then segLoop ls (i + 1) (some st) acc
    else segLoop ls (i + 1) none (acc ++ [(st, i - 1)])

/-- The `tableRegions` list computed by step 1 of `improvedCleanMarkerOutput`. -/
def tableRegions (lines : List (List Char)) : List (Nat × Nat) :=
  segLoop lines 0 none []

/-- The order in which the assembly loop (step 2 of `improvedCleanMarkerOutput`)
consumes line indices, tagged with the branch: `(i, false)` when line `i` goes
through `cleanRegularLine`, `(i, true)` when it is consumed by the
table-formatting branch.  `p` is `processedLines`, `n` the line count. -/
def traceLoop : List (Nat × Nat) → Nat → Nat → List (Nat × Bool)
  | [], p, n => (List.range' p (n - p)).map (fun i => (i, false))
  | (s, e) :: rest, p, n =>
    (List.range' p (s - p)).map (fun i => (i, false))
      ++ (List.range' s (e + 1 - s)).map (fun i => (i, true))
      ++ traceLoop rest (e + 1) n

/-- Emission trace of the document assembler on a given document. -/
def emitTrace (lines : List (List Char)) : List (Nat × Bool) :=
  traceLoop (tableRegions lines) 0 lines.length

/-- Well-placedness of an inclusive region list with respect to a cursor `p`
and a document length `n`: regions come in order, are nonempty, and stay
inside `[p, n)`. -/
def Chain : Nat → List (Nat × Nat) → Nat → Prop
  | p, [], n => p ≤ n
  | p, (s, e) :: rest, n => p ≤ s ∧ s ≤ e ∧ Chain (e + 1) rest n

/-- The regions delimit the table verdict `v` exactly: `v` is false on every
gap and true inside every region. -/
def Verd (v : Nat → Bool) : Nat → List (Nat × Nat) → Nat → Prop
  | p, [], n => ∀ i, p ≤ i → i < n → v i = false
  | p, (s, e) :: rest, n =>
    (∀ i, p ≤ i → i < s → v i = false) ∧
    (∀ i, s ≤ i → i ≤ e → v i = true) ∧ Verd v (e + 1) rest n

/-- JavaScript `String.prototype.split` with a single-character separator:
empty pieces are kept, the empty string splits to `[""]`. -/
def jsSplit (sep : Char) : List Char → List (List Char)
  | [] => [[]]
  | c :: rest =>
    match jsSplit sep rest with
    | [] => [[]]
    | piece :: pieces =>
      if c = sep then [] :: piece :: pieces else (c :: piece) :: pieces

/-- The pre-existing-separator test of `formatTableRegion`:
`line.match(/^\s*\|[\s\-\|]*\|\s*$/)` (anchored, hence a whole-line match:
optional surrounding whitespace, a first and a last pipe, and only
whitespace, dashes and pipes in between). -/
def isSepLine (l : List Char) : Bool :=
  match l.dropWhile jsWs with
  | '|' :: rest =>
    match rest.reverse.dropWhile jsWs with
    | '|' :: mid => mid.all (fun c => jsWs c || c = '-' || c = '|')
    | _ => false
  | _ => false

/-- Cell parsing of one table line inside `formatTableRegion`: split on `|`,
trim every piece, then drop a piece exactly when it is empty and sits at
index `0` or at index `length - 1` of the split array. -/
def lineCells (l : List Char) : List (List Char) :=
  let ts := (jsSplit '|' l).map jsTrim
  (ts.enum.filter (fun ic =>
    !(ic.2.isEmpty && (ic.1 == 0 || ic.1 == ts.length - 1)))).map Prod.snd

/-- The row-collection loop of `formatTableRegion`: a line contributes a row
when its trim is nonempty, it does not match the separator pattern, and it
parses to at least one cell. -/
def parseRows (tableLines : List (List Char)) : List (List (List Char)) :=
  tableLines.filterMap (fun line =>
    if (jsTrim line).isEmpty || isSepLine line then none
    else if (lineCells line).isEmpty then none else some (lineCells line))

/-- `maxColumns = Math.max(...rows.map(row => row.length))` (over a nonempty
`rows` this is the exact maximum). -/
def maxColumns (rows : List (List (List Char))) : Nat :=
  rows.foldl (fun m row => max m row.length) 0

/-- The cell lengths collected for one column:
`if (row[col]) cellLengths.push(row[col].length)` — a cell contributes only
when it is present and nonempty, because the empty string is falsy. -/
def colCellLengths (rows : List (List (List Char))) (col : Nat) : List Nat :=
  rows.filterMap (fun row =>
    let cell := row.getD col []
    if cell.isEmpty then none else some cell.length)

/-- The per-column width computation of `formatTableRegion`, over exact
rationals (`avgLength` is an IEEE double in the source; for the magnitudes
the pipeline produces the two agree on every comparison and floor taken). -/
def columnWidth (rows : List (List (List Char))) (col : Nat) : ℚ :=
  let lens := colCellLengths rows col
  if lens.isEmpty then 8
  else
    let avgLength : ℚ := ((lens.foldl (· + ·) 0 : Nat) : ℚ) / (lens.length : ℚ)
    let maxLength : Nat := lens.foldl max 0
    if maxLength ≤ 25 then max (maxLength : ℚ) 8
    else if maxLength ≤ 60 then
      max (min ((⌊(maxLength : ℚ) * (0.8 : ℚ)⌋ : ℤ) : ℚ) (avgLength + 10)) 15
    else min 50 (max 30 avgLength)

/-- The `columnWidths` array of `formatTableRegion`. -/
def columnWidths (rows : List (List (List Char))) : List ℚ :=
  (List.range (maxColumns rows)).map (columnWidth rows)

/-- JavaScript `String.prototype.padEnd` with spaces; a fractional target
length is floored by `ToLength` (our widths are always nonnegative). -/
def padEnd (l : List Char) (w : ℚ) : List Char :=
  l ++ List.replicate (⌊w⌋.toNat - l.length) ' '

/-- The greedy word-accumulation loop of the truncation branch: a word is
taken while `(result + word).length <= width - 3` (note the test ignores the
joining space that is then actually appended). -/
def accumWords (w3 : ℚ) : List (List Char) → List Char → List Char
  | [], acc => acc
  | word :: rest, acc =>
    if ((acc.length + word.length : Nat) : ℚ) ≤ w3 then
      accumWords w3 rest (acc ++ (if acc.isEmpty then [] else [' ']) ++ word)
    else acc

/-- Truncation of a cell longer than its column width: greedy word
accumulation, hard `substring(0, width - 3)` fallback, `"..."`, right-pad. -/
def truncateCell (cell : List Char) (w : ℚ) : List Char :=
  let result := accumWords (w - 3) (jsSplit ' ' cell) []
  let result2 := if result.isEmpty then cell.take (⌊w - 3⌋.toNat) else result
  padEnd (result2 ++ ['.', '.', '.']) w

/-- One formatted cell (the source's redundant inner length test is kept). -/
def formatCell (cell : List Char) (w : ℚ) : List Char :=
  if ((cell.length : Nat) : ℚ) ≤ w then padEnd cell w
  else if w < ((cell.length : Nat) : ℚ) then truncateCell cell w
  else padEnd cell w

/-- The `formattedCells` array for one row: `row[col] || ''` padded or
truncated to `columnWidths[col]`. -/
def rowCellsFmt (widths : List ℚ) (mc : Nat) (row : List (List Char)) : List (List Char) :=
  (List.range mc).map (fun col => formatCell (row.getD col []) (widths.getD col 0))

/-- `'| ' + formattedCells.join(' | ') + ' |'`. -/
def renderLine (cells : List (List Char)) : List Char :=
  '|' :: ' ' :: (List.intercalate [' ', '|', ' '] cells ++ [' ', '|'])

/-- The synthesized separator row: each cell is `width` hyphens. -/
def sepLine (widths : List ℚ) : List Char :=
  renderLine (widths.map (fun w => List.replicate ⌊w⌋.toNat '-'))

/-- The row-formatting loop of `formatTableRegion`; the separator line is
emitted immediately after row index `0`. -/
def renderRows (widths : List ℚ) (mc : Nat) : List (List (List Char)) → Nat → List (List Char)
  | [], _ => []
  | row :: rest, rowIndex =>
    (renderLine (rowCellsFmt widths mc row)
        :: (if rowIndex = 0 then [sepLine widths] else []))
      ++ renderRows widths mc rest (rowIndex + 1)

/-- `formatTableRegion` itself: a region of fewer than 2 lines, or one with
no parsed rows, is returned unmodified. -/
def formatTableRegion (tableLines : List (List Char)) : List (List Char) :=
  if tableLines.length < 2 then tableLines
  else
    let rows := parseRows tableLines
    if rows.isEmpty then tableLines
    else renderRows (columnWidths rows) (maxColumns rows) rows 0

/-- Column width as described by claim C3, which takes `max` and the exact
average over the lengths of all cells present at the column — including
empty cells — rather than only the nonempty ones. -/
def claimWidthC3 (rows : List (List (List Char))) (col : Nat) : ℚ :=
  let lens := rows.filterMap (fun row => (row.get? col).map List.length)
  if lens.isEmpty then 8
  else
    let avg : ℚ := ((lens.sum : Nat) : ℚ) / (lens.length : ℚ)
    let m : Nat := lens.foldl max 0
    if m ≤ 25 then max (m : ℚ) 8
    else if m ≤ 60 then
      max (min ((⌊(m : ℚ) * (4 / 5 : ℚ)⌋ : ℤ) : ℚ) (avg + 10)) 15
    else min 50 (max 30 avg)

/-- Column width as amended for claim C3: the same three-tier formula, with
`max` and the exact average taken over the lengths of the nonempty cells
present at the column, and the `width = 8` default applying when the column
has no nonempty cell. -/
def amendedWidthC3 (rows : List (List (List Char))) (col : Nat) : ℚ :=
  let lens := rows.filterMap (fun row =>
    (row.get? col).bind (fun cell => if cell = [] then none else some cell.length))
  if lens = [] then 8
  else
    let avg : ℚ := ((lens.sum : Nat) : ℚ) / (lens.length : ℚ)
    let m : Nat := lens.foldl max 0
    if m ≤ 25 then max (m : ℚ) 8
    else if m ≤ 60 then
      max (min ((⌊(m : ℚ) * (4 / 5 : ℚ)⌋ : ℤ) : ℚ) (avg + 10)) 15
    else min 50 (max 30 avg)

/-- The amended rendering-width property of claim C1 for a reformatted table
region: every row renders to exactly `maxColumns` cells; a cell that fits
its column renders at exactly the (floored) planned width; a truncated cell
renders at the planned width or one more than it, its content ending in
`"..."` before the right-padding spaces; and every synthesized separator
cell is exactly the planned width of hyphens. -/
def RenderWidthProp (tl : List (List Char)) : Prop :=
  let rows := parseRows tl
  let widths := columnWidths rows
  let mc := maxColumns rows
  (∀ row ∈ rows, (rowCellsFmt widths mc row).length = mc) ∧
  (∀ col < mc,
    (widths.map (fun w => List.replicate ⌊w⌋.toNat '-')).getD col [] =
      List.replicate (⌊widths.getD col 0⌋.toNat) '-') ∧
  (∀ row ∈ rows, ∀ col, col < mc →
    (row.getD col []).length ≤ (⌊widths.getD col 0⌋).toNat →
    ((rowCellsFmt widths mc row).getD col []).length = (⌊widths.getD col 0⌋).toNat) ∧
  (∀ row ∈ rows, ∀ col, col < mc →
    (⌊widths.getD col 0⌋).toNat < (row.getD col []).length →
    (((rowCellsFmt widths mc row).getD col []).length = (⌊widths.getD col 0⌋).toNat ∨
     ((rowCellsFmt widths mc row).getD col []).length = (⌊widths.getD col 0⌋).toNat + 1) ∧
    ∃ pre k, (rowCellsFmt widths mc row).getD col [] =
      pre ++ ('.' :: '.' :: '.' :: List.replicate k ' '))

/-- Executable companion of `columnWidth` over `ℕ` (the floor of the
rational width; equality is proved in `columnWidth_floor`). -/
def columnWidthN (rows : List (List (List Char))) (col : Nat) : ℕ :=
  let lens := colCellLengths rows col
  if lens.isEmpty then 8
  else
    let s := lens.foldl (· + ·) 0
    let k := lens.length
    let m := lens.foldl max 0
    if m ≤ 25 then max m 8
    else if m ≤ 60 then max (min ((4 * m) / 5) (s / k + 10)) 15
    else min 50 (max 30 (s / k))

/-- Executable companion of `columnWidths`. -/
def columnWidthsN (rows : List (List (List Char))) : List ℕ :=
  (List.range (maxColumns rows)).map (columnWidthN rows)

/-- Executable companion of `accumWords` with a floored budget. -/
def accumWordsN (t : ℤ) : List (List Char) → List Char → List Char
  | [], acc => acc
  | word :: rest, acc =>
    if ((acc.length + word.length : Nat) : ℤ) ≤ t then
      accumWordsN t rest (acc ++ (if acc.isEmpty then [] else [' ']) ++ word)
    else acc

/-- Executable companion of `formatCell` with a natural-number width. -/
def formatCellN (cell : List Char) (W : ℕ) : List Char :=
  if cell.length ≤ W then cell ++ List.replicate (W - cell.length) ' '
  else
    let r := accumWordsN ((W : ℤ) - 3) (jsSplit ' ' cell) []
    let r2 := if r.isEmpty then cell.take (W - 3) else r
    (r2 ++ ['.', '.', '.']) ++ List.replicate (W - (r2.length + 3)) ' '

/-- Executable companion of `rowCellsFmt`. -/
def rowCellsFmtN (ws : List ℕ) (mc : Nat) (row : List (List Char)) : List (List Char) :=
  (List.range mc).map (fun col => formatCellN (row.getD col []) (ws.getD col 0))

/-- Executable companion of `sepLine`. -/
def sepLineN (ws : List ℕ) : List Char :=
  renderLine (ws.map (fun w => List.replicate w '-'))

/-- Executable companion of `renderRows`. -/
def renderRowsN (ws : List ℕ) (mc : Nat) : List (List (List Char)) → Nat → List (List Char)
  | [], _ => []
  | row :: rest, rowIndex =>
    (renderLine (rowCellsFmtN ws mc row)
        :: (if rowIndex = 0 then [sepLineN ws] else []))
      ++ renderRowsN ws mc rest (rowIndex + 1)

/-- Executable companion of `formatTableRegion` (equality is proved in
`formatTableRegion_eq_natVersion`). -/
def formatTableRegionN (tableLines : List (List Char)) : List (List Char) :=
  if tableLines.length < 2 then tableLines
  else
    let rows := parseRows tableLines
    if rows.isEmpty then tableLines
    else renderRowsN (columnWidthsN rows) (maxColumns rows) rows 0

/-- The exact per-column average of nonempty cell lengths (used to state the
amended claim C6). -/
def colAvg (rows : List (List (List Char))) (col : Nat) : ℚ :=
  (((colCellLengths rows col).foldl (· + ·) 0 : Nat) : ℚ) /
    ((colCellLengths rows col).length : ℚ)

/-- Characters of a string literal (JavaScript strings are modelled as
their lists of characters). -/
def strChars (s : String) : List Char := s.data

/-- Letters of the JavaScript regex class `[A-Za-z]`. -/
def isAlpha (c : Char) : Bool :=
  ('A' ≤ c && c ≤ 'Z') || ('a' ≤ c && c ≤ 'z')

/-- Characters of the class `[A-Za-z\s]`. -/
def isAlphaWs (c : Char) : Bool := isAlpha c || jsWs c

/-- Digits `\d`. -/
def isDigitCh (c : Char) : Bool := '0' ≤ c && c ≤ '9'

/-- Upper-case letters `[A-Z]`. -/
def isUpper (c : Char) : Bool := 'A' ≤ c && c ≤ 'Z'

/-- Lower-case letters `[a-z]`. -/
def isLower (c : Char) : Bool := 'a' ≤ c && c ≤ 'z'

/-- Characters of the class `[^\s<>]`. -/
def isUrlChar (c : Char) : Bool := !(jsWs c) && c ≠ '<' && c ≠ '>'

/-- Generic global-replace scanner: at each position try a match; on success
emit the replacement and continue after the consumed characters (the
replacement is not rescanned), otherwise emit one character and advance.
This is `String.prototype.replace` with a `/g` regex whose match attempt at
one position is `tryX`.  The fuel is the input length; every match consumes
at least one character, so the fuel never runs out. -/
def scanRepl (tryX : List Char → Option (Nat × List Char)) : Nat → List Char → List Char
  | 0, l => l
  | _ + 1, [] => []
  | f + 1, c :: rest =>
    match tryX (c :: rest) with
    | some (k, repl) => repl ++ scanRepl tryX f (List.drop k (c :: rest))
    | none => c :: scanRepl tryX f rest

/-- Match attempt for `/<br\s*\/?>/` at the head of the list: returns the
number of characters consumed.  The backtracking of `\s*` is vacuous since
`/` and `>` are not whitespace. -/
def tryBr : List Char → Option Nat
  | '<' :: 'b' :: 'r' :: rest =>
    let w := rest.takeWhile jsWs
    match rest.dropWhile jsWs with
    | '/' :: '>' :: _ => some (3 + w.length + 2)
    | '>' :: _ => some (3 + w.length + 1)
    | _ => none
  | _ => none

/-- `line.replace(/<br\s*\/?>/g, ' ')`. -/
def brToSpace (l : List Char) : List Char :=
  scanRepl (fun s => (tryBr s).map (fun k => (k, [' ']))) l.length l

/-- Match attempt for `/<u>([^<>]*)<\/u>/` at the head: the inner class is
greedy and cannot backtrack past a `<` or `>`, so the closing tag must sit
exactly at the end of the maximal inner run. -/
def tryU : List Char → Option (Nat × List Char)
  | '<' :: 'u' :: '>' :: rest =>
    let inner := rest.takeWhile (fun c => c ≠ '<' && c ≠ '>')
    match rest.dropWhile (fun c => c ≠ '<' && c ≠ '>') with
    | '<' :: '/' :: 'u' :: '>' :: _ => some (3 + inner.length + 4, inner)
    | _ => none
  | _ => none

/-- `line.replace(/<u>([^<>]*)<\/u>/g, '$1')`. -/
def uUnwrap (l : List Char) : List Char := scanRepl tryU l.length l

/-- Match attempt for `/<\/?em>/` (the greedy `\/?` tries the slash first). -/
def tryEm : List Char → Option Nat
  | '<' :: '/' :: 'e' :: 'm' :: '>' :: _ => some 5
  | '<' :: 'e' :: 'm' :: '>' :: _ => some 4
  | _ => none

/-- `line.replace(/<\/?em>/g, '')`. -/
def emStrip (l : List Char) : List Char :=
  scanRepl (fun s => (tryEm s).map (fun k => (k, ([] : List Char)))) l.length l

/-- Match attempt for `/<\/?strong>/`. -/
def tryStrong : List Char → Option Nat
  | '<' :: '/' :: 's' :: 't' :: 'r' :: 'o' :: 'n' :: 'g' :: '>' :: _ => some 9
  | '<' :: 's' :: 't' :: 'r' :: 'o' :: 'n' :: 'g' :: '>' :: _ => some 8
  | _ => none

/-- `line.replace(/<\/?strong>/g, '')`. -/
def strongStrip (l : List Char) : List Char :=
  scanRepl (fun s => (tryStrong s).map (fun k => (k, ([] : List Char)))) l.length l

/-- Match attempt for `/([A-Za-z\s]+),\s*<br>\s*([A-Za-z\s]+)/` with
replacement `'$1, $2'`.  The first class is greedy and `,` is outside the
class, so the comma must follow the maximal run; `\s*` cannot backtrack
past the literal `<`; the second class, when the greedy `\s*` leaves no
letter, backtracks to take the last whitespace character. -/
def tryCommaBr (l : List Char) : Option (Nat × List Char) :=
  let r1 := l.takeWhile isAlphaWs
  if r1.isEmpty then none
  else
    match l.dropWhile isAlphaWs with
    | ',' :: r2 =>
      let w1 := r2.takeWhile jsWs
      match r2.dropWhile jsWs with
      | '<' :: 'b' :: 'r' :: '>' :: r3 =>
        let w2 := r3.takeWhile jsWs
        match r3.dropWhile jsWs with
        | c3 :: _ =>
          if isAlpha c3 then
            let cls2 := (r3.dropWhile jsWs).takeWhile isAlphaWs
            some (r1.length + 1 + w1.length + 4 + w2.length + cls2.length,
              r1 ++ [','] ++ [' '] ++ cls2)
          else if !w2.isEmpty then
            some (r1.length + 1 + w1.length + 4 + w2.length,
              r1 ++ [','] ++ [' '] ++ w2.drop (w2.length - 1))
          else none
        | [] =>
          if !w2.isEmpty then
            some (r1.length + 1 + w1.length + 4 + w2.length,
              r1 ++ [','] ++ [' '] ++ w2.drop (w2.length - 1))
          else none
      | _ => none
    | _ => none

/-- `line.replace(/([A-Za-z\s]+),\s*<br>\s*([A-Za-z\s]+)/g, '$1, $2')`. -/
def fixCommaBr (l : List Char) : List Char := scanRepl tryCommaBr l.length l

/-- Match attempt for `/([A-Za-z\s]+),\s*([A-Za-z\s]+)/` with replacement
`'$1, $2'` (same backtracking analysis as `tryCommaBr`). -/
def tryComma (l : List Char) : Option (Nat × List Char) :=
  let r1 := l.takeWhile isAlphaWs
  if r1.isEmpty then none
  else
    match l.dropWhile isAlphaWs with
    | ',' :: r2 =>
      let w1 := r2.takeWhile jsWs
      match r2.dropWhile jsWs with
      | c3 :: _ =>
        if isAlpha c3 then
          let cls2 := (r2.dropWhile jsWs).takeWhile isAlphaWs
          some (r1.length + 1 + w1.length + cls2.length, r1 ++ [','] ++ [' '] ++ cls2)
        else if !w1.isEmpty then
          some (r1.length + 1 + w1.length, r1 ++ [','] ++ [' '] ++ w1.drop (w1.length - 1))
        else none
      | [] =>
        if !w1.isEmpty then
          some (r1.length + 1 + w1.length, r1 ++ [','] ++ [' '] ++ w1.drop (w1.length - 1))
        else none
    | _ => none

/-- `line.replace(/([A-Za-z\s]+),\s*([A-Za-z\s]+)/g, '$1, $2')`. -/
def locationFix (l : List Char) : List Char := scanRepl tryComma l.length l

/-- The lookahead `(?=\s+[A-Z][a-z])`: at least one whitespace character,
then an upper-case letter followed by a lower-case one. -/
def lookFootnote (l : List Char) : Bool :=
  match l.dropWhile jsWs with
  | u :: v :: _ => !(l.takeWhile jsWs).isEmpty && isUpper u && isLower v
  | _ => false

/-- Match attempt for `\d{1,2}` (greedy: two digits first) under the
footnote lookahead; returns the number of digits removed. -/
def tryFootnote : List Char → Option Nat
  | d1 :: d2 :: rest =>
    if isDigitCh d1 && isDigitCh d2 && lookFootnote rest then some 2
    else if isDigitCh d1 && lookFootnote (d2 :: rest) then some 1
    else none
  | d1 :: rest => if isDigitCh d1 && lookFootnote rest then some 1 else none
  | [] => none

/-- Scanner for `line.replace(/(?<=\s)\d{1,2}(?=\s+[A-Z][a-z])/g, '')`: the
boolean records whether the previous original character is whitespace (the
lookbehind); after a removal the previous character is the last digit. -/
def scanFootnote : Nat → Bool → List Char → List Char
  | 0, _, l => l
  | _ + 1, _, [] => []
  | f + 1, prevWs, c :: rest =>
    if prevWs then
      match tryFootnote (c :: rest) with
      | some k => scanFootnote f false (List.drop k (c :: rest))
      | none => c :: scanFootnote f (jsWs c) rest
    else c :: scanFootnote f (jsWs c) rest

/-- `line.replace(/(?<=\s)\d{1,2}(?=\s+[A-Z][a-z])/g, '')`. -/
def footnoteStrip (l : List Char) : List Char := scanFootnote l.length false l

/-- Match attempt for `/(https?:\/\/[^\s<>]+)<br>([^\s<>]+)/` after the
scheme: `<` is outside the URL class, so `<br>` must sit at the end of the
maximal first run. -/
def tryUrlTail : List Char → Option (Nat × List Char)
  | ':' :: '/' :: '/' :: r =>
    let u1 := r.takeWhile isUrlChar
    if u1.isEmpty then none
    else
      match r.dropWhile isUrlChar with
      | '<' :: 'b' :: 'r' :: '>' :: r2 =>
        let u2 := r2.takeWhile isUrlChar
        if u2.isEmpty then none
        else some (3 + u1.length + 4 + u2.length, ':' :: '/' :: '/' :: (u1 ++ u2))
      | _ => none
  | _ => none

/-- Match attempt for the URL-repair regex (a failed `https` attempt cannot
backtrack into a successful `http` one, since the character after the `p`
would have to be both `s` and `:`). -/
def tryUrl : List Char → Option (Nat × List Char)
  | 'h' :: 't' :: 't' :: 'p' :: rest =>
    (match rest with
     | 's' :: rest2 =>
       (match tryUrlTail rest2 with
        | some (k, rep) => some (5 + k, 'h' :: 't' :: 't' :: 'p' :: 's' :: rep)
        | none => none)
     | _ =>
       (match tryUrlTail rest with
        | some (k, rep) => some (4 + k, 'h' :: 't' :: 't' :: 'p' :: rep)
        | none => none))
  | _ => none

/-- `text.replace(/(https?:\/\/[^\s<>]+)<br>([^\s<>]+)/g, '$1$2')`. -/
def urlRepair (l : List Char) : List Char := scanRepl tryUrl l.length l

/-- `line.replace(/\s+/g, ' ')` as a one-pass state machine (the boolean
records whether the previous character was inside a whitespace run). -/
def wsCollapseAux : Bool → List Char → List Char
  | _, [] => []
  | inWs, c :: rest =>
    if jsWs c then (if inWs then [] else [' ']) ++ wsCollapseAux true rest
    else c :: wsCollapseAux false rest

/-- `line.replace(/\s+/g, ' ')`. -/
def wsCollapse (l : List Char) : List Char := wsCollapseAux false l

/-- `line.replace(/\s*\|\s*/g, ' | ')` as a state machine: `pending` holds
a whitespace run not yet known to precede a pipe (flushed verbatim if it
does not), and the boolean records that a match just consumed a pipe, whose
trailing `\s*` swallows the following whitespace. -/
def pipeNormAux : List Char → Bool → List Char → List Char
  | pending, afterPipe, [] => if afterPipe then [] else pending
  | pending, afterPipe, c :: rest =>
    if c = '|' then ' ' :: '|' :: ' ' :: pipeNormAux [] true rest
    else if jsWs c then
      if afterPipe then pipeNormAux [] true rest
      else pipeNormAux (pending ++ [c]) false rest
    else (if afterPipe then [] else pending) ++ c :: pipeNormAux [] false rest

/-- `line.replace(/\s*\|\s*/g, ' | ')`. -/
def pipeNormalize (l : List Char) : List Char := pipeNormAux [] false l

/-- The prefix of a whitespace run before its first newline. -/
def beforeFirstNl (l : List Char) : List Char := l.takeWhile (fun c => c ≠ '\n')

/-- The suffix of a whitespace run after its last newline. -/
def afterLastNl (l : List Char) : List Char :=
  (l.reverse.takeWhile (fun c => c ≠ '\n')).reverse

/-- Newline count of a run. -/
def countNl (l : List Char) : Nat := l.count '\n'

/-- Flush one buffered whitespace run for `/\n\s*\n\s*\n+/g → '\n\n'`: a
run containing at least three newlines is matched from its first to its
last newline and that span is replaced by two newlines. -/
def flushBlank (pending : List Char) : List Char :=
  if 3 ≤ countNl pending then
    beforeFirstNl pending ++ '\n' :: '\n' :: afterLastNl pending
  else pending

/-- `text.replace(/\n\s*\n\s*\n+/g, '\n\n')` as a state machine buffering
each maximal whitespace run. -/
def blankCollapseAux : List Char → List Char → List Char
  | pending, [] => flushBlank pending
  | pending, c :: rest =>
    if jsWs c then blankCollapseAux (pending ++ [c]) rest
    else flushBlank pending ++ c :: blankCollapseAux [] rest

/-- `text.replace(/\n\s*\n\s*\n+/g, '\n\n')`. -/
def blankCollapse (l : List Char) : List Char := blankCollapseAux [] l

/-- States of the `/^#+\s*$/gm` scanner: scanning normally (with a
line-start flag), buffering a run of `#`s begun at a line start, or
buffering the following whitespace. -/
inductive HeadSt
  | normal : Bool → HeadSt
  | hashes : List Char → HeadSt
  | hws : List Char → List Char → HeadSt

/-- `text.replace(/^#+\s*$/gm, '')`: a line-start run of `#`s followed by
whitespace matches up to (not including) the last newline of that
whitespace, or to the end of the text; the match is deleted.  On a failed
attempt the buffers are flushed verbatim (no inner position is a line
start). -/
def rehAux : HeadSt → List Char → List Char
  | .normal _, [] => []
  | .hashes _, [] => []
  | .hws _ _, [] => []
  | .normal atStart, c :: rest =>
    if atStart && c = '#' then rehAux (.hashes ['#']) rest
    else c :: rehAux (.normal (c = '\n')) rest
  | .hashes buf, c :: rest =>
    if c = '#' then rehAux (.hashes (buf ++ [c])) rest
    else if jsWs c then rehAux (.hws buf [c]) rest
    else buf ++ c :: rehAux (.normal false) rest
  | .hws buf wbuf, c :: rest =>
    if jsWs c then rehAux (.hws buf (wbuf ++ [c])) rest
    else if wbuf.contains '\n' then
      '\n' :: afterLastNl wbuf ++
        (if (afterLastNl wbuf).isEmpty && c = '#' then rehAux (.hashes ['#']) rest
         else c :: rehAux (.normal (c = '\n')) rest)
    else buf ++ wbuf ++ c :: rehAux (.normal false) rest

/-- `text.replace(/^#+\s*$/gm, '')`. -/
def removeEmptyHeaders (l : List Char) : List Char := rehAux (.normal true) l

/-- `cleanTableLine`: the conservative per-line cleaning for table lines,
in source order. -/
def cleanTableLine (line : List Char) : List Char :=
  jsTrim (pipeNormalize (wsCollapse (strongStrip (emStrip (uUnwrap (brToSpace
    (fixCommaBr line)))))))

/-- `cleanRegularLine`: the aggressive per-line cleaning for prose lines,
in source order. -/
def cleanRegularLine (line : List Char) : List Char :=
  jsTrim (wsCollapse (footnoteStrip (locationFix (strongStrip (emStrip (uUnwrap
    (brToSpace line)))))))

/-- `applyGlobalCleanups`: blank-run collapsing, empty-header removal, and
URL repair, in source order. -/
def applyGlobalCleanups (text : List Char) : List Char :=
  urlRepair (removeEmptyHeaders (blankCollapse text))

/-- Step 2 of `improvedCleanMarkerOutput`: walk the table regions in order,
cleaning the gap lines with `cleanRegularLine`, cleaning each region's lines
with `cleanTableLine` and formatting the region, then clean the trailing
lines.  `processed` is `processedLines`. -/
def assembleLoop (lines : List (List Char)) : List (Nat × Nat) → Nat → List (List Char)
  | [], processed =>
    (List.range' processed (lines.length - processed)).map
      (fun i => cleanRegularLine (lines.getD i []))
  | (s, e) :: rest, processed =>
    (List.range' processed (s - processed)).map (fun i => cleanRegularLine (lines.getD i []))
      ++ formatTableRegion
          ((List.range' s (e + 1 - s)).map (fun i => cleanTableLine (lines.getD i [])))
      ++ assembleLoop lines rest (e + 1)

/-- `improvedCleanMarkerOutput`: split into lines, segment, assemble, join,
apply the global cleanups, and `trim()` the result. -/
def improvedCleanMarkerOutput (text : String) : String :=
  let lines := jsSplit '\n' text.data
  let cleanedLines := assembleLoop lines (tableRegions lines) 0
  String.mk (jsTrim (applyGlobalCleanups (List.intercalate ['\n'] cleanedLines)))

/-- JavaScript values that can reach `cleanMarkerOutput` (numbers as exact
rationals). -/
inductive JSVal
  | str : String → JSVal
  | num : ℚ → JSVal
  | boolean : Bool → JSVal
  | nullV : JSVal
  | undefV : JSVal
deriving DecidableEq

/-- JavaScript truthiness of a `JSVal`. -/
def truthy : JSVal → Bool
  | .str s => !s.isEmpty
  | .num n => decide (n ≠ 0)
  | .boolean b => b
  | .nullV => false
  | .undefV => false

/-- `typeof v === 'string'`. -/
def isStringV : JSVal → Bool
  | .str _ => true
  | _ => false

/-- `cleanMarkerOutput`: the guard
`if (!markdownContent || typeof markdownContent !== 'string') return markdownContent;`
returns non-strings and the falsy empty string unchanged; otherwise the
improved cleaning runs.  The function contains no `throw`, so the embedding
always returns `Except.ok`. -/
def cleanMarkerOutput (v : JSVal) : Except String JSVal :=
  if !truthy v || !isStringV v then .ok v
  else
    match v with
    | .str s => .ok (.str (improvedCleanMarkerOutput s))
    | other => .ok other

/-- Characters that pass through every table-line cleaning step unchanged:
not `<` (no markup rewriting), not `|` (no cell boundary), not whitespace. -/
def plainChar (c : Char) : Bool := c ≠ '<' && c ≠ '|' && !(jsWs c)

/-- A clean nonempty cell: one or more plain-character words separated by
single spaces.  This is the shape of every nonempty cell that the first
pass itself produces from ordinary text. -/
inductive CleanC : List Char → Prop
  | single (w : List Char) (hw : w ≠ []) (hp : ∀ c ∈ w, plainChar c = true) : CleanC w
  | cons (w : List Char) (hw : w ≠ []) (hp : ∀ c ∈ w, plainChar c = true)
      (rest : List Char) (hr : CleanC rest) : CleanC (w ++ ' ' :: rest)

/-- Executable checker for `CleanC` (fuelled by the input length). -/
def cleanCBF : Nat → List Char → Bool
  | 0, _ => false
  | f + 1, l =>
    !(l.takeWhile plainChar).isEmpty &&
      ((l.dropWhile plainChar).isEmpty ||
        ((l.dropWhile plainChar).headD 'x' == ' ' && cleanCBF f (l.dropWhile plainChar).tail))

/-- Executable checker for `CleanC`. -/
def cleanCB (l : List Char) : Bool := cleanCBF l.length l

/-- The row padded out to the full column count, exactly as the renderer
reads it: `row[col] || ''` for each column index. -/
def fullRow (mc : Nat) (row : List (List Char)) : List (List Char) :=
  (List.range mc).map (fun col => row.getD col [])

/-- One cell's contribution to the whitespace-collapsed rendered line. -/
def canonSeg (c : List Char) : List Char :=
  if c = [] then [' ', '|'] else ' ' :: (c ++ [' ', '|'])

/-- Body of the whitespace-collapsed rendered line. -/
def canonBody : List (List Char) → List Char
  | [] => []
  | c :: rest => canonSeg c ++ canonBody rest

/-- The rendered line after `wsCollapse`. -/
def canonLine (cs : List (List Char)) : List Char := '|' :: canonBody cs

/-- Body of the fully cleaned rendered line (after `pipeNormalize` every
pipe carries exactly one space on each side, so an empty cell shows up as
a double space between pipes). -/
def canon2Body : List (List Char) → List Char
  | [] => []
  | c :: rest => (' ' :: (c ++ [' ', '|'])) ++ canon2Body rest

/-- The rendered line after the whole of `cleanTableLine`. -/
def canon2 (cs : List (List Char)) : List Char := '|' :: canon2Body cs

/-- A row whose padded cells contain only dashes and spaces: its rendered
line matches the separator pattern and is dropped by a second parse. -/
def DashyRow (mc : Nat) (row : List (List Char)) : Prop :=
  ∀ cell ∈ fullRow mc row, ∀ ch ∈ cell, ch = '-' ∨ ch = ' '

/-- A formatted cell is its clean (or empty) parsed cell followed by
right-padding spaces. -/
def PadC (p c : List Char) : Prop :=
  (c = [] ∨ CleanC c) ∧ ∃ k, p = c ++ List.replicate k ' '

/-- The per-line row extraction of `formatTableRegion` (the body of the
`parseRows` filter). -/
def rowOfLine (line : List Char) : Option (List (List Char)) :=
  if (jsTrim line).isEmpty || isSepLine line then none
  else if (lineCells line).isEmpty then none else some (lineCells line)

/-- A small already-clean table region (witness for the amended claim C4). -/
def tlC4 : List (List Char) := [strChars "| ab | c |", strChars "| de | f |"]

/-- The first pass of the C4 counterexample: a dash-only first cell in a
line that does not match the separator pattern (no trailing pipe). -/
def docC4 : String := "| ------------ | ---\n| abc | de |"

/-- The output of the first pass on `docC4`: the dash-only row is rendered
with a trailing pipe, so the second pass reads it as a separator. -/
def docC4b : String :=
  "| ------------ | ---      |\n| ------------ | -------- |\n| abc          | de       |"

/-- A two-line table region whose first cell truncates at a word boundary
(used against claim C1). -/
def docC1 : List (List Char) :=
  [strChars "| abcdefgh ijklmnopq more |", strChars "| abcdefghijklmnopqrstuvwxyz |"]

/-- A two-line table region with an empty interior cell above a 60-character
cell (used against claim C3). -/
def docC3 : List (List Char) :=
  [strChars "| a | | b |",
   strChars "| c | " ++ List.replicate 60 'x' ++ strChars " | d |"]

/-- A two-line single-column table region with cell lengths 60 and 1 (used
against claim C6). -/
def docC6 : List (List Char) :=
  [strChars "| " ++ List.replicate 60 'x' ++ strChars " |", strChars "| y |"]

theorem segLoop_nil_none (i : Nat) (acc : List (Nat × Nat)) :
    segLoop [] i none acc = acc := rfl

theorem segLoop_nil_some (n st : Nat) (acc : List (Nat × Nat)) :
    segLoop [] n (some st) acc = acc ++ [(st, n - 1)] := rfl

theorem segLoop_cons_none (l : List Char) (ls : List (List Char)) (i : Nat)
    (acc : List (Nat × Nat)) :
    segLoop (l :: ls) i none acc =
      if isTableLine l then segLoop ls (i + 1) (some i) acc
      else segLoop ls (i + 1) none acc := rfl

theorem segLoop_cons_some (l : List Char) (ls : List (List Char)) (i st : Nat)
    (acc : List (Nat × Nat)) :
    segLoop (l :: ls) i (some st) acc =
      if isTableLine l then segLoop ls (i + 1) (some st) acc
      else segLoop ls (i + 1) none (acc ++ [(st, i - 1)]) := rfl

theorem map_fst_tag (b : Bool) (l : List Nat) : (l.map (fun i => (i, b))).map Prod.fst = l := by
  induction l with
  | nil => rfl
  | cons x xs ih => simp [ih]

theorem chain_le : ∀ (R : List (Nat × Nat)) (p n : Nat), Chain p R n → p ≤ n := by
  intro R
  induction R with
  | nil => intro p n h; exact h
  | cons se rest ih =>
    obtain ⟨s, e⟩ := se
    intro p n h
    obtain ⟨h1, h2, h3⟩ := h
    have := ih (e + 1) n h3
    omega

theorem chain_mono : ∀ (R : List (Nat × Nat)) (p q n : Nat), p ≤ q → Chain q R n → Chain p R n := by
  intro R
  induction R with
  | nil => intro p q n hpq h; exact le_trans hpq h
  | cons se rest _ =>
    obtain ⟨s, e⟩ := se
    intro p q n hpq h
    exact ⟨le_trans hpq h.1, h.2.1, h.2.2⟩

theorem verd_cons_false (v : Nat → Bool) :
    ∀ (R : List (Nat × Nat)) (i n : Nat), Verd v (i + 1) R n → v i = false → Verd v i R n := by
  intro R
  induction R with
  | nil =>
    intro i n h hvi
    intro j hj hjn
    rcases Nat.eq_or_lt_of_le hj with rfl | hlt
    · exact hvi
    · exact h j hlt hjn
  | cons se rest _ =>
    obtain ⟨s, e⟩ := se
    intro i n h hvi
    refine ⟨?_, h.2.1, h.2.2⟩
    intro j hj hjs
    rcases Nat.eq_or_lt_of_le hj with rfl | hlt
    · exact hvi
    · exact h.1 j hlt hjs

theorem segLoop_acc : ∀ (ls : List (List Char)) (i : Nat) (cur : Option Nat)
    (acc : List (Nat × Nat)), segLoop ls i cur acc = acc ++ segLoop ls i cur [] := by
  intro ls
  induction ls with
  | nil =>
    intro i cur acc
    cases cur with
    | none => simp [segLoop]
    | some st => simp [segLoop]
  | cons l ls ih =>
    intro i cur acc
    cases cur with
    | none =>
      rw [segLoop_cons_none, segLoop_cons_none]
      by_cases h : isTableLine l
      · rw [if_pos h, if_pos h]
        exact ih (i + 1) (some i) acc
      · rw [if_neg h, if_neg h]
        exact ih (i + 1) none acc
    | some st =>
      rw [segLoop_cons_some, segLoop_cons_some]
      by_cases h : isTableLine l
      · rw [if_pos h, if_pos h]
        exact ih (i + 1) (some st) acc
      · rw [if_neg h, if_neg h]
        rw [ih (i + 1) none (acc ++ [(st, i - 1)]), ih (i + 1) none ([] ++ [(st, i - 1)])]
        simp

theorem segLoop_spec (v : Nat → Bool) :
    ∀ (ls : List (List Char)) (i : Nat),
      (∀ k, k < ls.length → v (i + k) = isTableLine (ls.getD k [])) →
      ((Chain i (segLoop ls i none []) (i + ls.length) ∧
        Verd v i (segLoop ls i none []) (i + ls.length)) ∧
       (∀ st, st < i → (∀ j, st ≤ j → j < i → v j = true) →
         Chain st (segLoop ls i (some st) []) (i + ls.length) ∧
         Verd v st (segLoop ls i (some st) []) (i + ls.length))) := by
  intro ls
  induction ls with
  | nil =>
    intro i _
    constructor
    · constructor
      · simp [segLoop, Chain]
      · simp only [segLoop, List.length_nil, Nat.add_zero]
        intro j hj hjn
        omega
    · intro st hst hpre
      constructor
      · simp only [segLoop, List.length_nil, Nat.add_zero, List.nil_append]
        refine ⟨le_refl st, by omega, ?_⟩
        simp only [Chain]
        omega
      · simp only [segLoop, List.length_nil, Nat.add_zero, List.nil_append]
        refine ⟨?_, ?_, ?_⟩
        · intro j hj hjs; omega
        · intro j hj hje
          exact hpre j hj (by omega)
        · simp only [Verd]
          intro j hj hjn
          omega
  | cons l ls ih =>
    intro i hv
    have hv0 : v i = isTableLine l := by
      have := hv 0 (by simp)
      simpa using this
    have hvs : ∀ k, k < ls.length → v (i + 1 + k) = isTableLine (ls.getD k []) := by
      intro k hk
      have := hv (k + 1) (by simpa using Nat.succ_lt_succ hk)
      simpa [Nat.add_assoc, Nat.add_comm 1 k] using this
    have IH := ih (i + 1) hvs
    have hlen : i + (l :: ls).length = (i + 1) + ls.length := by
      simp [Nat.add_assoc, Nat.add_comm 1 ls.length]
    constructor
    · rw [segLoop_cons_none, hlen]
      by_cases h : isTableLine l
      · rw [if_pos h]
        refine (IH.2 i (by omega) ?_)
        intro j hj hji
        have : j = i := by omega
        subst this
        rw [hv0, h]
      · rw [if_neg h]
        refine ⟨chain_mono _ i (i + 1) _ (by omega) IH.1.1, ?_⟩
        refine verd_cons_false v _ i _ IH.1.2 ?_
        rw [hv0]
        simpa using h
    · intro st hst hpre
      rw [segLoop_cons_some, hlen]
      by_cases h : isTableLine l
      · rw [if_pos h]
        refine IH.2 st (by omega) ?_
        intro j hj hji
        rcases Nat.lt_or_ge j i with hlt | hge
        · exact hpre j hj hlt
        · have : j = i := by omega
          subst this
          rw [hv0, h]
      · rw [if_neg h, segLoop_acc, List.nil_append, List.singleton_append]
        constructor
        · refine ⟨le_refl st, by omega, ?_⟩
          have : i - 1 + 1 = i := by omega
          rw [this]
          exact chain_mono _ i (i + 1) _ (by omega) IH.1.1
        · refine ⟨?_, ?_, ?_⟩
          · intro j hj hjs; omega
          · intro j hj hje
            exact hpre j hj (by omega)
          · have : i - 1 + 1 = i := by omega
            rw [this]
            refine verd_cons_false v _ i _ IH.1.2 ?_
            rw [hv0]
            simpa using h

theorem range'_glue (a b c : Nat) (hab : a ≤ b) (hbc : b ≤ c) :
    List.range' a (b - a) ++ List.range' b (c - b) = List.range' a (c - a) := by
  have := List.range'_append a (b - a) (c - b) 1
  simp only [Nat.mul_one, Nat.one_mul] at this
  rw [show a + (b - a) = b by omega] at this
  rw [this]
  congr 1
  omega

theorem traceLoop_fst : ∀ (R : List (Nat × Nat)) (p n : Nat), Chain p R n →
    (traceLoop R p n).map Prod.fst = List.range' p (n - p) := by
  intro R
  induction R with
  | nil =>
    intro p n _
    rw [traceLoop, map_fst_tag]
  | cons se rest ih =>
    obtain ⟨s, e⟩ := se
    intro p n h
    obtain ⟨h1, h2, h3⟩ := h
    have hen : e + 1 ≤ n := chain_le rest (e + 1) n h3
    rw [traceLoop, List.map_append, List.map_append, map_fst_tag, map_fst_tag,
      ih (e + 1) n h3, List.append_assoc]
    rw [show e + 1 - s = (e + 1) - s from rfl]
    rw [range'_glue s (e + 1) n (by omega) hen, range'_glue p s n h1 (by omega)]

theorem traceLoop_branch (v : Nat → Bool) :
    ∀ (R : List (Nat × Nat)) (p n : Nat), Chain p R n → Verd v p R n →
      ∀ x ∈ traceLoop R p n, x.2 = v x.1 := by
  intro R
  induction R with
  | nil =>
    intro p n _ hverd x hx
    simp only [traceLoop, List.mem_map, List.mem_range'_1] at hx
    obtain ⟨i, ⟨hpi, hin⟩, rfl⟩ := hx
    exact (hverd i hpi (by omega)).symm
  | cons se rest ih =>
    obtain ⟨s, e⟩ := se
    intro p n hchain hverd x hx
    obtain ⟨h1, h2, h3⟩ := hchain
    obtain ⟨g1, g2, g3⟩ := hverd
    simp only [traceLoop, List.mem_append, List.mem_map, List.mem_range'_1] at hx
    rcases hx with (⟨i, ⟨hpi, hin⟩, rfl⟩ | ⟨i, ⟨hpi, hin⟩, rfl⟩) | hx
    · exact (g1 i hpi (by omega)).symm
    · exact (g2 i hpi (by omega)).symm
    · exact ih (e + 1) n h3 g3 x hx

/-- C2: the regions computed by `improvedCleanMarkerOutput` are contiguous,
non-overlapping and exhaustive: the assembly loop consumes every line index
of `[0, lineCount)` exactly once, in original order, and a line is consumed
by the table branch if and only if its classifier verdict is table (so table
regions are exactly the maximal runs of table-verdict lines). -/
theorem region_coverage (lines : List (List Char)) :
    (emitTrace lines).map Prod.fst = List.range lines.length ∧
    ∀ x ∈ emitTrace lines, x.2 = isTableLine (lines.getD x.1 []) := by
  have hv : ∀ k, k < lines.length →
      (fun j => isTableLine (lines.getD j [])) (0 + k) = isTableLine (lines.getD k []) := by
    intro k _
    simp
  have H := (segLoop_spec (fun j => isTableLine (lines.getD j [])) lines 0 hv).1
  have hchain : Chain 0 (tableRegions lines) lines.length := by
    simpa [tableRegions] using H.1
  have hverd : Verd (fun j => isTableLine (lines.getD j [])) 0 (tableRegions lines) lines.length := by
    simpa [tableRegions] using H.2
  constructor
  · rw [emitTrace, traceLoop_fst (tableRegions lines) 0 lines.length hchain]
    rw [List.range_eq_range']
    congr 1
  · intro x hx
    exact traceLoop_branch _ (tableRegions lines) 0 lines.length hchain hverd x hx

/-- C5: a line receives a table verdict iff it contains at least two pipe
characters; with exactly one pipe it is never a table line, with exactly two
it always is. -/
theorem classifier_boundary (l : List Char) :
    (isTableLine l = true ↔ 2 ≤ countPipes l) ∧
    (countPipes l = 1 → isTableLine l = false) ∧
    (countPipes l = 2 → isTableLine l = true) := by
  refine ⟨?_, ?_, ?_⟩
  · simp [isTableLine]
  · intro h
    simp [isTableLine, h]
  · intro h
    simp [isTableLine, h]

/-- Witness for C5 at concrete lines. -/
theorem classifier_boundary_witness :
    countPipes ('a' :: '|' :: 'b' :: '|' :: []) = 2 ∧
    isTableLine ('a' :: '|' :: 'b' :: '|' :: []) = true :=
  ⟨by decide, (classifier_boundary ('a' :: '|' :: 'b' :: '|' :: [])).2.2 (by decide)⟩

theorem floor_rat_min (a b : ℚ) : ⌊min a b⌋ = min ⌊a⌋ ⌊b⌋ := by
  rcases le_total a b with h | h
  · rw [min_eq_left h, min_eq_left (Int.floor_mono h)]
  · rw [min_eq_right h, min_eq_right (Int.floor_mono h)]

theorem floor_rat_max (a b : ℚ) : ⌊max a b⌋ = max ⌊a⌋ ⌊b⌋ := by
  rcases le_total a b with h | h
  · rw [max_eq_right h, max_eq_right (Int.floor_mono h)]
  · rw [max_eq_left h, max_eq_left (Int.floor_mono h)]

theorem floor_nat_div (s k : ℕ) : ⌊((s : ℚ)) / ((k : ℚ))⌋ = ((s / k : ℕ) : ℤ) := by
  have h := Rat.floor_intCast_div_natCast (s : ℤ) k
  rw [Int.ofNat_div]
  simpa using h

theorem floor_mul_point_eight (m : ℕ) : ⌊(m : ℚ) * (0.8 : ℚ)⌋ = (((4 * m) / 5 : ℕ) : ℤ) := by
  have h : (m : ℚ) * (0.8 : ℚ) = ((4 * m : ℕ) : ℚ) / ((5 : ℕ) : ℚ) := by
    have h1 : (0.8 : ℚ) = 4 / 5 := by norm_num
    rw [h1]
    push_cast
    ring
  rw [h, floor_nat_div]

theorem columnWidth_ge_eight (rows : List (List (List Char))) (col : Nat) :
    (8 : ℚ) ≤ columnWidth rows col := by
  simp only [columnWidth]
  by_cases h0 : (colCellLengths rows col).isEmpty = true
  · rw [if_pos h0]
  · rw [if_neg h0]
    by_cases h1 : (colCellLengths rows col).foldl max 0 ≤ 25
    · rw [if_pos h1]
      exact le_max_right _ _
    · rw [if_neg h1]
      by_cases h2 : (colCellLengths rows col).foldl max 0 ≤ 60
      · rw [if_pos h2]
        exact le_trans (by norm_num) (le_max_right _ (15 : ℚ))
      · rw [if_neg h2]
        exact le_min (by norm_num) (le_trans (by norm_num) (le_max_left (30 : ℚ) _))

theorem columnWidth_floor (rows : List (List (List Char))) (col : Nat) :
    ⌊columnWidth rows col⌋ = (columnWidthN rows col : ℤ) := by
  simp only [columnWidth, columnWidthN]
  by_cases h0 : (colCellLengths rows col).isEmpty = true
  · rw [if_pos h0, if_pos h0]
    norm_num
  · rw [if_neg h0, if_neg h0]
    by_cases h1 : (colCellLengths rows col).foldl max 0 ≤ 25
    · rw [if_pos h1, if_pos h1]
      rw [floor_rat_max]
      rw [show ((8 : ℚ)) = ((8 : ℕ) : ℚ) by norm_num, Int.floor_natCast, Int.floor_natCast]
      push_cast
      rfl
    · rw [if_neg h1, if_neg h1]
      by_cases h2 : (colCellLengths rows col).foldl max 0 ≤ 60
      · rw [if_pos h2, if_pos h2]
        rw [floor_rat_max, floor_rat_min, Int.floor_intCast, floor_mul_point_eight]
        rw [show ((10 : ℚ)) = (((10 : ℕ)) : ℚ) by norm_num, Int.floor_add_nat, floor_nat_div]
        rw [show ((15 : ℚ)) = (((15 : ℕ)) : ℚ) by norm_num, Int.floor_natCast]
        push_cast
        rfl
      · rw [if_neg h2, if_neg h2]
        rw [floor_rat_min, floor_rat_max, floor_nat_div]
        rw [show ((50 : ℚ)) = (((50 : ℕ)) : ℚ) by norm_num, Int.floor_natCast]
        rw [show ((30 : ℚ)) = (((30 : ℕ)) : ℚ) by norm_num, Int.floor_natCast]
        push_cast
        rfl

theorem columnWidth_floor_toNat (rows : List (List (List Char))) (col : Nat) :
    (⌊columnWidth rows col⌋).toNat = columnWidthN rows col := by
  rw [columnWidth_floor]
  simp

theorem accumWords_eq_natVersion (w3 : ℚ) :
    ∀ (words : List (List Char)) (acc : List Char),
      accumWords w3 words acc = accumWordsN ⌊w3⌋ words acc := by
  intro words
  induction words with
  | nil => intro acc; rfl
  | cons word rest ih =>
    intro acc
    show (if ((acc.length + word.length : Nat) : ℚ) ≤ w3 then
        accumWords w3 rest (acc ++ (if acc.isEmpty then [] else [' ']) ++ word) else acc)
      = (if ((acc.length + word.length : Nat) : ℤ) ≤ ⌊w3⌋ then
        accumWordsN ⌊w3⌋ rest (acc ++ (if acc.isEmpty then [] else [' ']) ++ word) else acc)
    by_cases h : ((acc.length + word.length : Nat) : ℚ) ≤ w3
    · rw [if_pos h, if_pos (Int.le_floor.mpr (by exact_mod_cast h)), ih]
    · rw [if_neg h, if_neg (fun hc => h (by exact_mod_cast Int.le_floor.mp hc))]

theorem formatCell_eq_natVersion (cell : List Char) (w : ℚ) (h8 : (8 : ℚ) ≤ w) :
    formatCell cell w = formatCellN cell (⌊w⌋).toNat := by
  have h8f : (8 : ℤ) ≤ ⌊w⌋ := by
    have := Int.floor_mono h8
    simpa using this
  have hWeq : (((⌊w⌋).toNat : ℤ)) = ⌊w⌋ := Int.toNat_of_nonneg (by omega)
  have hle : ∀ n : ℕ, (((n : ℕ) : ℚ) ≤ w ↔ n ≤ (⌊w⌋).toNat) := by
    intro n
    rw [show (((n : ℕ) : ℚ)) = (((n : ℤ) : ℚ)) by push_cast; ring, ← Int.le_floor, ← hWeq]
    exact_mod_cast Iff.rfl
  simp only [formatCell, formatCellN, truncateCell, padEnd]
  by_cases hc : ((cell.length : Nat) : ℚ) ≤ w
  · rw [if_pos hc, if_pos ((hle _).1 hc)]
  · have hc2 : w < ((cell.length : Nat) : ℚ) := not_le.mp hc
    rw [if_neg hc, if_pos hc2, if_neg (fun hcon => hc ((hle _).2 hcon))]
    have h3 : ⌊w - 3⌋ = ((⌊w⌋).toNat : ℤ) - 3 := by
      rw [show ((3 : ℚ)) = (((3 : ℤ)) : ℚ) by norm_num, Int.floor_sub_int]
      omega
    rw [accumWords_eq_natVersion (w - 3), h3]
    have htake : ((((⌊w⌋).toNat : ℤ) - 3)).toNat = (⌊w⌋).toNat - 3 := by omega
    rw [htake]
    simp only [List.length_append, List.length_cons, List.length_nil]

theorem columnWidths_getD (rows : List (List (List Char))) (col : Nat)
    (h : col < maxColumns rows) :
    (columnWidths rows).getD col 0 = columnWidth rows col := by
  unfold columnWidths
  rw [List.getD_eq_getElem?_getD, List.getElem?_map, List.getElem?_range h]
  rfl

theorem columnWidthsN_getD (rows : List (List (List Char))) (col : Nat)
    (h : col < maxColumns rows) :
    (columnWidthsN rows).getD col 0 = columnWidthN rows col := by
  unfold columnWidthsN
  rw [List.getD_eq_getElem?_getD, List.getElem?_map, List.getElem?_range h]
  rfl

theorem rowCellsFmt_eq_natVersion (rows : List (List (List Char))) (row : List (List Char)) :
    rowCellsFmt (columnWidths rows) (maxColumns rows) row
      = rowCellsFmtN (columnWidthsN rows) (maxColumns rows) row := by
  unfold rowCellsFmt rowCellsFmtN
  refine List.map_congr_left ?_
  intro col hcol
  rw [List.mem_range] at hcol
  rw [columnWidths_getD rows col hcol, columnWidthsN_getD rows col hcol,
    formatCell_eq_natVersion _ _ (columnWidth_ge_eight rows col),
    columnWidth_floor_toNat]

theorem columnWidthsN_eq_map (rows : List (List (List Char))) :
    columnWidthsN rows = (columnWidths rows).map (fun w => (⌊w⌋).toNat) := by
  unfold columnWidthsN columnWidths
  rw [List.map_map]
  exact (List.map_congr_left (fun col _ => (columnWidth_floor_toNat rows col).symm))

theorem sepLine_eq_natVersion (rows : List (List (List Char))) :
    sepLine (columnWidths rows) = sepLineN (columnWidthsN rows) := by
  unfold sepLine sepLineN
  rw [columnWidthsN_eq_map, List.map_map]
  rfl

theorem renderRows_eq_natVersion (rows : List (List (List Char))) :
    ∀ (rs : List (List (List Char))) (idx : Nat),
      renderRows (columnWidths rows) (maxColumns rows) rs idx
        = renderRowsN (columnWidthsN rows) (maxColumns rows) rs idx := by
  intro rs
  induction rs with
  | nil => intro idx; rfl
  | cons row rest ih =>
    intro idx
    show (renderLine (rowCellsFmt (columnWidths rows) (maxColumns rows) row)
        :: (if idx = 0 then [sepLine (columnWidths rows)] else []))
        ++ renderRows (columnWidths rows) (maxColumns rows) rest (idx + 1)
      = (renderLine (rowCellsFmtN (columnWidthsN rows) (maxColumns rows) row)
        :: (if idx = 0 then [sepLineN (columnWidthsN rows)] else []))
        ++ renderRowsN (columnWidthsN rows) (maxColumns rows) rest (idx + 1)
    rw [rowCellsFmt_eq_natVersion, sepLine_eq_natVersion, ih]

theorem formatTableRegion_eq_natVersion (tableLines : List (List Char)) :
    formatTableRegion tableLines = formatTableRegionN tableLines := by
  unfold formatTableRegion formatTableRegionN
  by_cases h2 : tableLines.length < 2
  · rw [if_pos h2, if_pos h2]
  · rw [if_neg h2, if_neg h2]
    by_cases hr : (parseRows tableLines).isEmpty
    · simp only [hr, if_true]
    · simp only [hr, if_false]
      exact renderRows_eq_natVersion (parseRows tableLines) (parseRows tableLines) 0

theorem floor_mul_four_fifths (m : ℕ) :
    ⌊(m : ℚ) * (4 / 5 : ℚ)⌋ = (((4 * m) / 5 : ℕ) : ℤ) := by
  have h : (m : ℚ) * (4 / 5 : ℚ) = ((4 * m : ℕ) : ℚ) / ((5 : ℕ) : ℚ) := by
    push_cast
    ring
  rw [h, floor_nat_div]

theorem rowCellsFmt_getD (ws : List ℚ) (mc : Nat) (row : List (List Char)) (col : Nat)
    (h : col < mc) :
    (rowCellsFmt ws mc row).getD col [] = formatCell (row.getD col []) (ws.getD col 0) := by
  unfold rowCellsFmt
  rw [List.getD_eq_getElem?_getD, List.getElem?_map, List.getElem?_range h]
  rfl

theorem getD_map_replicate (l : List ℚ) (i : Nat) (h : i < l.length) :
    (l.map (fun w => List.replicate (⌊w⌋).toNat '-')).getD i [] =
      List.replicate ((⌊l.getD i 0⌋).toNat) '-' := by
  rw [List.getD_eq_getElem?_getD, List.getElem?_map, List.getD_eq_getElem?_getD,
    List.getElem?_eq_getElem h]
  rfl

theorem accumWordsN_length (t : ℤ) :
    ∀ (words : List (List Char)) (acc : List Char),
      (accumWordsN t words acc).length ≤ max acc.length (t.toNat + 1) := by
  intro words
  induction words with
  | nil => intro acc; exact le_max_left _ _
  | cons word rest ih =>
    intro acc
    show (if ((acc.length + word.length : Nat) : ℤ) ≤ t then
        accumWordsN t rest (acc ++ (if acc.isEmpty then [] else [' ']) ++ word)
      else acc).length ≤ max acc.length (t.toNat + 1)
    by_cases h : ((acc.length + word.length : Nat) : ℤ) ≤ t
    · rw [if_pos h]
      have hnew : (acc ++ (if acc.isEmpty then [] else [' ']) ++ word).length ≤ t.toNat + 1 := by
        by_cases ha : acc.isEmpty
        · have hae : acc = [] := List.isEmpty_iff.mp ha

          subst hae
          simp only [List.isEmpty_nil, if_pos, List.nil_append, List.length_nil,
            List.length_append]
          simp only [List.length_nil, Nat.zero_add] at h
          omega
        · rw [if_neg ha]
          simp only [List.length_append, List.length_cons, List.length_nil]
          omega
      refine le_trans (ih _) ?_
      omega
    · rw [if_neg h]
      exact le_max_left _ _

theorem formatCellN_length_fits (cell : List Char) (W : ℕ) (h : cell.length ≤ W) :
    (formatCellN cell W).length = W := by
  unfold formatCellN
  rw [if_pos h]
  simp only [List.length_append, List.length_replicate]
  omega

theorem formatCellN_trunc (cell : List Char) (W : ℕ) (h8 : 8 ≤ W) (h : W < cell.length) :
    ((formatCellN cell W).length = W ∨ (formatCellN cell W).length = W + 1) ∧
    ∃ pre k, formatCellN cell W = pre ++ ('.' :: '.' :: '.' :: List.replicate k ' ') := by
  simp only [formatCellN]
  rw [if_neg (by omega)]
  have hrlen : (accumWordsN ((W : ℤ) - 3) (jsSplit ' ' cell) []).length ≤ W - 2 := by
    have hb := accumWordsN_length ((W : ℤ) - 3) (jsSplit ' ' cell) []
    simp only [List.length_nil] at hb
    omega
  by_cases he : (accumWordsN ((W : ℤ) - 3) (jsSplit ' ' cell) []).isEmpty
  · rw [if_pos he]
    have htl : (cell.take (W - 3)).length ≤ W - 3 := by
      simp only [List.length_take]
      omega
    constructor
    · simp only [List.length_append, List.length_replicate, List.length_cons, List.length_nil]
      omega
    · exact ⟨cell.take (W - 3), W - ((cell.take (W - 3)).length + 3), by
        simp [List.append_assoc]⟩
  · rw [if_neg he]
    constructor
    · simp only [List.length_append, List.length_replicate, List.length_cons, List.length_nil]
      omega
    · exact ⟨accumWordsN ((W : ℤ) - 3) (jsSplit ' ' cell) [],
        W - ((accumWordsN ((W : ℤ) - 3) (jsSplit ' ' cell) []).length + 3), by
        simp [List.append_assoc]⟩

theorem columnWidth_cases (rows : List (List (List Char))) (col : Nat) :
    (∃ n : ℤ, columnWidth rows col = (n : ℚ)) ∨
    columnWidth rows col = colAvg rows col + 10 ∨
    columnWidth rows col = colAvg rows col := by
  simp only [columnWidth, colAvg]
  by_cases h0 : (colCellLengths rows col).isEmpty = true
  · rw [if_pos h0]
    exact Or.inl ⟨8, by norm_num⟩
  · rw [if_neg h0]
    by_cases h1 : (colCellLengths rows col).foldl max 0 ≤ 25
    · rw [if_pos h1]
      refine Or.inl ⟨(max ((colCellLengths rows col).foldl max 0) 8 : ℕ), ?_⟩
      push_cast
      rfl
    · rw [if_neg h1]
      by_cases h2 : (colCellLengths rows col).foldl max 0 ≤ 60
      · rw [if_pos h2]
        set c : ℚ := ((⌊(((colCellLengths rows col).foldl max 0 : ℕ) : ℚ) * (0.8 : ℚ)⌋ : ℤ) : ℚ)
          with hc
        set a : ℚ := (((colCellLengths rows col).foldl (· + ·) 0 : Nat) : ℚ) /
          ((colCellLengths rows col).length : ℚ) with ha
        rcases le_total c (a + 10) with hm | hm
        · rw [min_eq_left hm]
          rcases le_total c 15 with hx | hx
          · rw [max_eq_right hx]
            exact Or.inl ⟨15, by norm_num⟩
          · rw [max_eq_left hx, hc]
            exact Or.inl ⟨_, rfl⟩
        · rw [min_eq_right hm]
          rcases le_total (a + 10) 15 with hx | hx
          · rw [max_eq_right hx]
            exact Or.inl ⟨15, by norm_num⟩
          · rw [max_eq_left hx]
            exact Or.inr (Or.inl rfl)
      · rw [if_neg h2]
        set a : ℚ := (((colCellLengths rows col).foldl (· + ·) 0 : Nat) : ℚ) /
          ((colCellLengths rows col).length : ℚ) with ha
        rcases le_total (30 : ℚ) a with hx | hx
        · rw [max_eq_right hx]
          rcases le_total (50 : ℚ) a with hy | hy
          · rw [min_eq_left hy]
            exact Or.inl ⟨50, by norm_num⟩
          · rw [min_eq_right hy]
            exact Or.inr (Or.inr rfl)
        · rw [max_eq_left hx]
          rw [min_eq_right (by norm_num : (30 : ℚ) ≤ 50)]
          exact Or.inl ⟨30, by norm_num⟩

/-- C6 (counterexample): the ColumnPlan target width is not always an
integer: for a column with nonempty cell lengths 60 and 1 the medium tier
yields `avg + 10 = 81/2`, which is not an integral rational. -/
theorem width_integrality_counterexample :
    parseRows docC6 = [[List.replicate 60 'x'], [['y']]] ∧
    columnWidth (parseRows docC6) 0 = 81 / 2 ∧
    ¬ ∃ n : ℤ, columnWidth (parseRows docC6) 0 = (n : ℚ) := by
  have hlens : colCellLengths (parseRows docC6) 0 = [60, 1] := by decide
  have hmax : (([60, 1] : List ℕ)).foldl max 0 = 60 := by decide
  have hsum : (([60, 1] : List ℕ)).foldl (· + ·) 0 = 61 := by decide
  have hlen2 : (([60, 1] : List ℕ)).length = 2 := by decide
  have hval : columnWidth (parseRows docC6) 0 = 81 / 2 := by
    simp only [columnWidth, hlens, hmax, hsum, hlen2]
    rw [if_neg (by decide), if_neg (by norm_num), if_pos (by norm_num),
      floor_mul_point_eight 60]
    norm_num [min_def, max_def]
  refine ⟨by decide, hval, ?_⟩
  rintro ⟨n, hn⟩
  rw [hval] at hn
  have h2 : (81 : ℚ) = 2 * (n : ℚ) := by
    field_simp at hn
    linarith
  have h3 : (81 : ℤ) = 2 * n := by exact_mod_cast h2
  omega

/-- C6 (amended): each ColumnPlan target width is a rational number that
need not be integral: it is an integer unless the medium tier selects
`avg + 10` or the long tier selects `avg`, where `avg` is the exact mean of
the column's nonempty cell lengths. -/
theorem width_rational_amended (rows : List (List (List Char))) (col : Nat) :
    (∃ n : ℤ, columnWidth rows col = (n : ℚ)) ∨
    columnWidth rows col = colAvg rows col + 10 ∨
    columnWidth rows col = colAvg rows col :=
  columnWidth_cases rows col

/-- C3 (counterexample): the width formula uses the average of the nonempty
cell lengths only: over a column with a present-but-empty cell above a
60-character cell, the code computes width 48 while the claimed formula
(averaging all present cells) gives 40. -/
theorem width_average_counterexample :
    parseRows docC3 = [[['a'], [], ['b']],
      [['c'], List.replicate 60 'x', ['d']]] ∧
    columnWidth (parseRows docC3) 1 = 48 ∧
    claimWidthC3 (parseRows docC3) 1 = 40 ∧
    ((48 : ℚ)) ≠ 40 := by
  have hfloor : ⌊columnWidth (parseRows docC3) 1⌋ = 48 := by
    rw [columnWidth_floor, show columnWidthN (parseRows docC3) 1 = 48 from by decide]
    norm_num
  have havg : colAvg (parseRows docC3) 1 = 60 := by
    simp only [colAvg, show colCellLengths (parseRows docC3) 1 = [60] from by decide]
    norm_num
  have hcode : columnWidth (parseRows docC3) 1 = 48 := by
    rcases columnWidth_cases (parseRows docC3) 1 with ⟨n, hn⟩ | h | h
    · rw [hn] at hfloor ⊢
      rw [Int.floor_intCast] at hfloor
      rw [hfloor]
      norm_num
    · exfalso
      rw [h, havg] at hfloor
      have hlt := Int.lt_floor_add_one ((60 : ℚ) + 10)
      rw [hfloor] at hlt
      norm_num at hlt
    · exfalso
      rw [h, havg] at hfloor
      have hlt := Int.lt_floor_add_one ((60 : ℚ))
      rw [hfloor] at hlt
      norm_num at hlt
  have hclaim : claimWidthC3 (parseRows docC3) 1 = 40 := by
    have hcl : (parseRows docC3).filterMap (fun row => (row.get? 1).map List.length)
        = [0, 60] := by decide
    have hm : (([0, 60] : List ℕ)).foldl max 0 = 60 := by decide
    have hs : (([0, 60] : List ℕ)).sum = 60 := by decide
    have hl : (([0, 60] : List ℕ)).length = 2 := by decide
    simp only [claimWidthC3, hcl, hm, hs, hl]
    rw [if_neg (by decide), if_neg (by norm_num), if_pos (by norm_num),
      floor_mul_four_fifths 60]
    norm_num [min_def, max_def]
  exact ⟨by decide, hcode, hclaim, by norm_num⟩

/-- C3 (amended): the per-column width follows the claimed three-tier
formula with `max` and the exact average taken over the lengths of the
nonempty cells at the column, the width-8 default applying when the column
has no nonempty cell. -/
theorem width_formula_amended (rows : List (List (List Char))) (col : Nat) :
    columnWidth rows col = amendedWidthC3 rows col := by
  have hfun : (fun (row : List (List Char)) => (row.get? col).bind
        (fun cell => if cell = [] then none else some cell.length))
      = (fun (row : List (List Char)) =>
        if (row.getD col []).isEmpty then none else some (row.getD col []).length) := by
    funext row
    have hgd : row.getD col [] = (row.get? col).getD [] := rfl
    rw [hgd]
    cases row.get? col with
    | none => rfl
    | some cell =>
      cases cell with
      | nil => rfl
      | cons c cs => rfl
  have hl : rows.filterMap (fun row => (row.get? col).bind
        (fun cell => if cell = [] then none else some cell.length))
      = colCellLengths rows col := by
    rw [hfun]
    rfl
  simp only [columnWidth, amendedWidthC3]
  rw [hl, List.sum_eq_foldl, show ((0.8 : ℚ)) = 4 / 5 from by norm_num]
  by_cases h0 : colCellLengths rows col = []
  · rw [if_pos (by simp [h0]), if_pos h0]
  · rw [if_neg (by simp [h0]), if_neg h0]

/-- C1 (counterexample): rendered table rows are not always rectangular and
a truncated cell does not always have length exactly the column width: with
plan width 20, the cell `"abcdefgh ijklmnopq more"` renders as
`"abcdefgh ijklmnopq..."` of length 21, and the three output lines have
lengths 25, 24, 24. -/
theorem render_width_counterexample :
    columnWidths (parseRows docC1) = [(20 : ℚ)] ∧
    formatTableRegion docC1 = [strChars "| abcdefgh ijklmnopq... |",
      strChars "| -------------------- |", strChars "| abcdefghijklmnopq... |"] ∧
    (formatTableRegion docC1).map List.length = [25, 24, 24] ∧
    ((rowCellsFmt (columnWidths (parseRows docC1)) 1 ((parseRows docC1).getD 0 [])).getD 0
      []).length = 21 ∧
    (21 : ℕ) ≠ 20 := by
  have hfloor : ⌊columnWidth (parseRows docC1) 0⌋ = 20 := by
    rw [columnWidth_floor, show columnWidthN (parseRows docC1) 0 = 20 from by decide]
    norm_num
  have havg : colAvg (parseRows docC1) 0 = 49 / 2 := by
    simp only [colAvg, show colCellLengths (parseRows docC1) 0 = [23, 26] from by decide]
    norm_num
  have hw : columnWidth (parseRows docC1) 0 = 20 := by
    rcases columnWidth_cases (parseRows docC1) 0 with ⟨n, hn⟩ | h | h
    · rw [hn] at hfloor ⊢
      rw [Int.floor_intCast] at hfloor
      rw [hfloor]
      norm_num
    · exfalso
      rw [h, havg] at hfloor
      have hlt := Int.lt_floor_add_one ((49 : ℚ) / 2 + 10)
      rw [hfloor] at hlt
      norm_num at hlt
    · exfalso
      rw [h, havg] at hfloor
      have hlt := Int.lt_floor_add_one ((49 : ℚ) / 2)
      rw [hfloor] at hlt
      norm_num at hlt
  have hmc : maxColumns (parseRows docC1) = 1 := by decide
  have hws : columnWidths (parseRows docC1) = [(20 : ℚ)] := by
    unfold columnWidths
    rw [hmc]
    rw [show List.range 1 = [0] from rfl]
    simp only [List.map_cons, List.map_nil]
    rw [hw]
  have hfmt : formatTableRegion docC1 = [strChars "| abcdefgh ijklmnopq... |",
      strChars "| -------------------- |", strChars "| abcdefghijklmnopq... |"] := by
    rw [formatTableRegion_eq_natVersion]
    decide
  refine ⟨hws, hfmt, by rw [hfmt]; decide, ?_, by decide⟩
  rw [hws]
  rw [rowCellsFmt_getD _ _ _ _ (by norm_num)]
  rw [show (([(20 : ℚ)]).getD 0 0) = 20 from rfl]
  rw [formatCell_eq_natVersion _ _ (by norm_num),
    show ((⌊(20 : ℚ)⌋).toNat) = 20 from by
      rw [show ((20 : ℚ)) = (((20 : ℕ)) : ℚ) from by norm_num, Int.floor_natCast]
      simp]
  decide

/-- C1 (amended): for a reformatted table region, each row renders to
exactly `maxColumns` cells; a cell that fits its column renders at exactly
the floored plan width; a truncated cell renders at the floored width or at
most one more character (the greedy word loop's length test ignores the
joining space it appends), its content ending in `"..."` followed only by
padding spaces; separator cells are exactly the floored width of hyphens. -/
theorem render_width_amended (tl : List (List Char))
    (h2 : 2 ≤ tl.length) (hrows : parseRows tl ≠ []) : RenderWidthProp tl := by
  clear h2 hrows
  refine ⟨?_, ?_, ?_, ?_⟩
  · intro row _
    simp [rowCellsFmt]
  · intro col hcol
    have hlen : col < (columnWidths (parseRows tl)).length := by
      simpa [columnWidths] using hcol
    exact getD_map_replicate _ _ hlen
  · intro row _ col hcol hfits
    rw [rowCellsFmt_getD _ _ _ _ hcol, columnWidths_getD _ _ hcol,
      formatCell_eq_natVersion _ _ (columnWidth_ge_eight (parseRows tl) col)]
    rw [columnWidths_getD _ _ hcol] at hfits
    exact formatCellN_length_fits _ _ hfits
  · intro row _ col hcol htr
    rw [rowCellsFmt_getD _ _ _ _ hcol, columnWidths_getD _ _ hcol,
      formatCell_eq_natVersion _ _ (columnWidth_ge_eight (parseRows tl) col)]
    rw [columnWidths_getD _ _ hcol] at htr
    have h8 : 8 ≤ (⌊columnWidth (parseRows tl) col⌋).toNat := by
      have := Int.floor_mono (columnWidth_ge_eight (parseRows tl) col)
      have h8f : (8 : ℤ) ≤ ⌊columnWidth (parseRows tl) col⌋ := by simpa using this
      omega
    exact formatCellN_trunc _ _ h8 htr

/-- Witness for the amended claim C1 on a concrete two-line region. -/
theorem render_width_amended_witness :
    RenderWidthProp [strChars "| ab |", strChars "| c |"] :=
  render_width_amended [strChars "| ab |", strChars "| c |"] (by decide) (by decide)

theorem scanRepl_id (tryX : List Char → Option (Nat × List Char)) (P : Char → Prop)
    (hnone : ∀ l, (∀ c ∈ l, P c) → tryX l = none) :
    ∀ (fuel : Nat) (l : List Char), (∀ c ∈ l, P c) → scanRepl tryX fuel l = l := by
  intro fuel
  induction fuel with
  | zero => intro l _; rfl
  | succ f ih =>
    intro l h
    cases l with
    | nil => rfl
    | cons c rest =>
      rw [show scanRepl tryX (f + 1) (c :: rest) = (match tryX (c :: rest) with
          | some (k, repl) => repl ++ scanRepl tryX f (List.drop k (c :: rest))
          | none => c :: scanRepl tryX f rest) from rfl]
      rw [hnone _ h]
      rw [ih rest (fun x hx => h x (by simp [hx]))]

theorem tryBr_none (l : List Char) (h : ∀ c ∈ l, c ≠ '<') : tryBr l = none := by
  unfold tryBr
  split
  · next rest => exact absurd rfl (h '<' (by simp))
  · rfl

theorem tryU_none (l : List Char) (h : ∀ c ∈ l, c ≠ '<') : tryU l = none := by
  unfold tryU
  split
  · next rest => exact absurd rfl (h '<' (by simp))
  · rfl

theorem tryEm_none (l : List Char) (h : ∀ c ∈ l, c ≠ '<') : tryEm l = none := by
  unfold tryEm
  split
  · next rest => exact absurd rfl (h '<' (by simp))
  · next rest => exact absurd rfl (h '<' (by simp))
  · rfl

theorem tryStrong_none (l : List Char) (h : ∀ c ∈ l, c ≠ '<') : tryStrong l = none := by
  unfold tryStrong
  split
  · next rest => exact absurd rfl (h '<' (by simp))
  · next rest => exact absurd rfl (h '<' (by simp))
  · rfl

theorem tryCommaBr_none (l : List Char) (h : ∀ c ∈ l, c ≠ '<') : tryCommaBr l = none := by
  unfold tryCommaBr
  by_cases h1 : (l.takeWhile isAlphaWs).isEmpty = true
  · rw [if_pos h1]
  · rw [if_neg h1]
    split
    · next r2 heq =>
      have hr2 : ∀ c ∈ r2, c ≠ '<' := by
        intro c hc
        refine h c ((List.dropWhile_sublist isAlphaWs).subset ?_)
        rw [heq]
        simp [hc]
      split
      · next r3 heq2 =>
        exfalso
        have : '<' ∈ r2.dropWhile jsWs := by
          rw [heq2]
          simp
        exact hr2 '<' ((List.dropWhile_sublist jsWs).subset this) rfl
      · rfl
    · rfl

theorem tryUrlTail_none (r : List Char) (h : ∀ c ∈ r, c ≠ '<') : tryUrlTail r = none := by
  unfold tryUrlTail
  split
  · next rr =>
    have hrr : ∀ c ∈ rr, c ≠ '<' := fun c hc => h c (by simp [hc])
    by_cases h1 : (rr.takeWhile isUrlChar).isEmpty = true
    · rw [if_pos h1]
    · rw [if_neg h1]
      split
      · next r2 heq =>
        exfalso
        have : '<' ∈ rr.dropWhile isUrlChar := by
          rw [heq]
          simp
        exact hrr '<' ((List.dropWhile_sublist isUrlChar).subset this) rfl
      · rfl
  · rfl

theorem tryUrl_none (l : List Char) (h : ∀ c ∈ l, c ≠ '<') : tryUrl l = none := by
  unfold tryUrl
  split
  · rename_i rest
    split
    · rename_i rest2
      rw [tryUrlTail_none rest2 (fun c hc => h c (by simp [hc]))]
    · rw [tryUrlTail_none rest (fun c hc => h c (by simp [hc]))]
  · rfl

theorem urlRepair_id (l : List Char) (h : ∀ c ∈ l, c ≠ '<') : urlRepair l = l :=
  scanRepl_id tryUrl (fun c => c ≠ '<') tryUrl_none l.length l h

theorem brToSpace_id (l : List Char) (h : ∀ c ∈ l, c ≠ '<') : brToSpace l = l :=
  scanRepl_id _ (fun c => c ≠ '<')
    (fun s hs => by rw [tryBr_none s hs]; rfl) l.length l h

theorem uUnwrap_id (l : List Char) (h : ∀ c ∈ l, c ≠ '<') : uUnwrap l = l :=
  scanRepl_id tryU (fun c => c ≠ '<') tryU_none l.length l h

theorem emStrip_id (l : List Char) (h : ∀ c ∈ l, c ≠ '<') : emStrip l = l :=
  scanRepl_id _ (fun c => c ≠ '<')
    (fun s hs => by rw [tryEm_none s hs]; rfl) l.length l h

theorem strongStrip_id (l : List Char) (h : ∀ c ∈ l, c ≠ '<') : strongStrip l = l :=
  scanRepl_id _ (fun c => c ≠ '<')
    (fun s hs => by rw [tryStrong_none s hs]; rfl) l.length l h

theorem fixCommaBr_id (l : List Char) (h : ∀ c ∈ l, c ≠ '<') : fixCommaBr l = l :=
  scanRepl_id tryCommaBr (fun c => c ≠ '<') tryCommaBr_none l.length l h

theorem rehAux_id (l : List Char) : ∀ (aS : Bool), (∀ c ∈ l, c ≠ '#') →
    rehAux (.normal aS) l = l := by
  induction l with
  | nil => intro aS _; rfl
  | cons c t ih =>
    intro aS h
    have hc : c ≠ '#' := h c (by simp)
    rw [show rehAux (.normal aS) (c :: t)
        = (if aS && c = '#' then rehAux (.hashes ['#']) t
           else c :: rehAux (.normal (c = '\n')) t) from rfl]
    rw [if_neg (by simp [hc])]
    rw [ih _ (fun x hx => h x (by simp [hx]))]

theorem removeEmptyHeaders_id (l : List Char) (h : ∀ c ∈ l, c ≠ '#') :
    removeEmptyHeaders l = l :=
  rehAux_id l true h

theorem blankCollapseAux_nil (p : List Char) : blankCollapseAux p [] = flushBlank p := rfl

theorem blankCollapseAux_cons (p : List Char) (c : Char) (rest : List Char) :
    blankCollapseAux p (c :: rest) =
      if jsWs c then blankCollapseAux (p ++ [c]) rest
      else flushBlank p ++ c :: blankCollapseAux [] rest := rfl

theorem flushBlank_replicate (k : Nat) :
    flushBlank (List.replicate k '\n') = List.replicate (min k 2) '\n' := by
  unfold flushBlank
  have hcount : countNl (List.replicate k '\n') = k := by
    simp [countNl]
  by_cases h : 3 ≤ countNl (List.replicate k '\n')
  · rw [if_pos h]
    rw [hcount] at h
    have h1 : beforeFirstNl (List.replicate k '\n') = [] := by
      obtain ⟨m, rfl⟩ : ∃ m, k = m + 1 := ⟨k - 1, by omega⟩
      simp [beforeFirstNl, List.replicate_succ]
    have h2 : afterLastNl (List.replicate k '\n') = [] := by
      unfold afterLastNl
      rw [List.reverse_replicate]
      obtain ⟨m, rfl⟩ : ∃ m, k = m + 1 := ⟨k - 1, by omega⟩
      simp [List.replicate_succ]
    rw [h1, h2, show min k 2 = 2 from by omega]
    rfl
  · rw [if_neg h]
    rw [hcount] at h
    rw [show min k 2 = k from by omega]

theorem blankCollapseAux_nonWs (rest : List Char) :
    ∀ (a : List Char), (∀ c ∈ a, jsWs c = false) →
      blankCollapseAux [] (a ++ rest) = a ++ blankCollapseAux [] rest := by
  intro a
  induction a with
  | nil => intro _; rfl
  | cons c t ih =>
    intro h
    have hc : jsWs c = false := h c (by simp)
    rw [List.cons_append, blankCollapseAux_cons, if_neg (by simp [hc])]
    rw [ih (fun x hx => h x (by simp [hx]))]
    rfl

theorem blankCollapseAux_ws_run (b : List Char) :
    ∀ (k : Nat) (p : List Char),
      blankCollapseAux p (List.replicate k '\n' ++ b) =
        blankCollapseAux (p ++ List.replicate k '\n') b := by
  intro k
  induction k with
  | zero => intro p; simp
  | succ n ih =>
    intro p
    rw [List.replicate_succ, List.cons_append, blankCollapseAux_cons,
      if_pos (by decide), ih (p ++ ['\n'])]
    congr 1
    simp [List.replicate_succ]

theorem blankCollapse_id_nonWs (a : List Char) (h : ∀ c ∈ a, jsWs c = false) :
    blankCollapseAux [] a = a := by
  have hx := blankCollapseAux_nonWs [] a h
  simpa [blankCollapseAux_nil, flushBlank, countNl] using hx

theorem blankCollapse_sandwich (a b : List Char) (k : Nat)
    (ha : ∀ c ∈ a, jsWs c = false) (hb : ∀ c ∈ b, jsWs c = false) :
    blankCollapse (a ++ List.replicate k '\n' ++ b)
      = a ++ List.replicate (min k 2) '\n' ++ b := by
  unfold blankCollapse
  rw [List.append_assoc, blankCollapseAux_nonWs (List.replicate k '\n' ++ b) a ha,
    blankCollapseAux_ws_run b k []]
  simp only [List.nil_append]
  cases b with
  | nil =>
    rw [blankCollapseAux_nil, flushBlank_replicate]
    simp
  | cons c t =>
    have hc : jsWs c = false := hb c (by simp)
    rw [blankCollapseAux_cons, if_neg (by simp [hc]), flushBlank_replicate]
    rw [blankCollapse_id_nonWs t (fun x hx => hb x (by simp [hx]))]
    simp [List.append_assoc]

/-- C7 (counterexample): whole-document normalization does not leave a run
of exactly two blank lines unchanged: `"a\n\n\nb"` (two blank lines, three
newlines) is collapsed to `"a\n\nb"` (one blank line). -/
theorem blank_collapse_counterexample :
    applyGlobalCleanups (strChars "a\n\n\nb") = strChars "a\n\nb" ∧
    strChars "a\n\nb" ≠ strChars "a\n\n\nb" := by
  constructor
  · decide
  · decide

/-- C7 (amended): whole-document normalization collapses every run of three
or more consecutive newline characters — that is, two or more consecutive
blank lines — to exactly one blank line, and leaves runs of at most two
newlines (at most one blank line) unchanged: around `#`-free, markup-free
non-whitespace text, `k` newlines become `min k 2` newlines. -/
theorem blank_collapse_amended (a b : List Char) (k : Nat)
    (ha : ∀ c ∈ a, jsWs c = false ∧ c ≠ '#' ∧ c ≠ '<')
    (hb : ∀ c ∈ b, jsWs c = false ∧ c ≠ '#' ∧ c ≠ '<') :
    applyGlobalCleanups (a ++ List.replicate k '\n' ++ b)
      = a ++ List.replicate (min k 2) '\n' ++ b := by
  unfold applyGlobalCleanups
  rw [blankCollapse_sandwich a b k (fun c hc => (ha c hc).1) (fun c hc => (hb c hc).1)]
  have hmem : ∀ c ∈ a ++ List.replicate (min k 2) '\n' ++ b, c ≠ '#' ∧ c ≠ '<' := by
    intro c hc
    simp only [List.mem_append, List.mem_replicate] at hc
    rcases hc with (hc | hc) | hc
    · exact ⟨(ha c hc).2.1, (ha c hc).2.2⟩
    · rw [hc.2]
      refine ⟨by decide, by decide⟩
    · exact ⟨(hb c hc).2.1, (hb c hc).2.2⟩
  rw [removeEmptyHeaders_id _ (fun c hc => (hmem c hc).1),
    urlRepair_id _ (fun c hc => (hmem c hc).2)]

/-- Witness for the amended claim C7: four newlines collapse to two, i.e.
three blank lines become one. -/
theorem blank_collapse_amended_witness :
    applyGlobalCleanups (strChars "a" ++ List.replicate 4 '\n' ++ strChars "b")
      = strChars "a" ++ List.replicate (min 4 2) '\n' ++ strChars "b" :=
  blank_collapse_amended (strChars "a") (strChars "b") 4 (by decide) (by decide)

/-- C8 (code bug): the URL-repair regex of `applyGlobalCleanups` would glue
the halves of a `<br>`-split URL, but the per-line cleaning has already
replaced every `<br>` with a space before it runs, so the pipeline never
concatenates the halves: the full pipeline leaves
`"http://example.com/pa th"` while the repair regex alone produces the
intended `"http://example.com/path"`. -/
theorem url_repair_code_bug :
    improvedCleanMarkerOutput "http://example.com/pa<br>th" = "http://example.com/pa th" ∧
    improvedCleanMarkerOutput "http://example.com/pa<br>th" ≠ "http://example.com/path" ∧
    urlRepair (strChars "http://example.com/pa<br>th") = strChars "http://example.com/path" := by
  refine ⟨by decide, by decide, by decide⟩

/-- C9 (counterexample): a non-string input does not raise an
`InvalidInputKind` condition — `cleanMarkerOutput` returns the value
unchanged. -/
theorem invalid_input_counterexample :
    cleanMarkerOutput (JSVal.num 5) = Except.ok (JSVal.num 5) := by
  simp [cleanMarkerOutput, isStringV]

/-- C9 (amended): `cleanMarkerOutput` never raises: every non-string value
is returned unchanged (silently, not as an error), and every string input —
including the empty string — produces a string. -/
theorem invalid_input_amended :
    (∀ v : JSVal, isStringV v = false → cleanMarkerOutput v = .ok v) ∧
    (∀ s : String, ∃ t : String, cleanMarkerOutput (.str s) = .ok (.str t)) := by
  constructor
  · intro v hv
    simp [cleanMarkerOutput, hv]
  · intro s
    by_cases h : truthy (.str s)
    · refine ⟨improvedCleanMarkerOutput s, ?_⟩
      simp [cleanMarkerOutput, h, isStringV]
    · refine ⟨s, ?_⟩
      have hs : s.isEmpty = true := by simpa [truthy] using h
      simp [cleanMarkerOutput, truthy, hs]

/-- Witness for the amended claim C9 at a concrete non-string value. -/
theorem invalid_input_amended_witness :
    cleanMarkerOutput JSVal.nullV = Except.ok JSVal.nullV :=
  invalid_input_amended.1 JSVal.nullV (by decide)

/-- C10: a table region of two or more lines whose cleaned lines are all
blank or separator-pattern lines parses to zero Rows, so the pipeline emits
the region's lines with only the minimal table-line cleaning applied: no
separator is synthesized and pre-existing separator lines are re-emitted
unchanged. -/
theorem sep_only_region (ls : List (List Char)) (h2 : 2 ≤ ls.length)
    (hall : ∀ l ∈ ls, jsTrim (cleanTableLine l) = [] ∨ isSepLine (cleanTableLine l) = true) :
    parseRows (ls.map cleanTableLine) = [] ∧
    formatTableRegion (ls.map cleanTableLine) = ls.map cleanTableLine := by
  have hrows : parseRows (ls.map cleanTableLine) = [] := by
    unfold parseRows
    rw [List.filterMap_map]
    rw [List.filterMap_eq_nil]
    intro l hl
    rcases hall l hl with h | h
    · simp [Function.comp, h]
    · simp [Function.comp, h]
  refine ⟨hrows, ?_⟩
  simp only [formatTableRegion]
  rw [if_neg (by simp; omega), hrows]
  rw [if_pos (by rfl)]

/-- Witness for claim C10 on a region of two separator lines. -/
theorem sep_only_region_witness :
    parseRows (([strChars "|---|---|", strChars "|-|"]).map cleanTableLine) = [] ∧
    formatTableRegion (([strChars "|---|---|", strChars "|-|"]).map cleanTableLine)
      = ([strChars "|---|---|", strChars "|-|"]).map cleanTableLine :=
  sep_only_region [strChars "|---|---|", strChars "|-|"] (by decide) (by decide)

/-! ### Claim C4: near-idempotence of the reformatting pipeline -/

theorem plain_spec {c : Char} (h : plainChar c = true) :
    c ≠ '<' ∧ c ≠ '|' ∧ jsWs c = false := by
  simp only [plainChar, Bool.and_eq_true, decide_eq_true_eq, Bool.not_eq_true'] at h
  exact ⟨h.1.1, h.1.2, h.2⟩

theorem plain_not_ws {c : Char} (h : plainChar c = true) : jsWs c = false :=
  (plain_spec h).2.2

theorem cleanC_ne_nil {c : List Char} (h : CleanC c) : c ≠ [] := by
  cases h with
  | single w hw hp => exact hw
  | cons w hw hp rest hr =>
    cases w with
    | nil => exact absurd rfl hw
    | cons a t => simp

theorem cleanC_mem {c : List Char} (h : CleanC c) :
    ∀ ch ∈ c, plainChar ch = true ∨ ch = ' ' := by
  induction h with
  | single w hw hp => exact fun ch hch => Or.inl (hp ch hch)
  | cons w hw hp rest hr ih =>
    intro ch hch
    rcases List.mem_append.mp hch with hin | hin
    · exact Or.inl (hp ch hin)
    · rcases List.mem_cons.mp hin with he | ht
      · exact Or.inr he
      · exact ih ch ht

theorem cleanC_head {c : List Char} (h : CleanC c) :
    ∃ a t, c = a :: t ∧ plainChar a = true := by
  induction h with
  | single w hw hp =>
    cases w with
    | nil => exact absurd rfl hw
    | cons a t => exact ⟨a, t, rfl, hp a (List.mem_cons_self a t)⟩
  | cons w hw hp rest hr ih =>
    cases w with
    | nil => exact absurd rfl hw
    | cons a t => exact ⟨a, t ++ ' ' :: rest, rfl, hp a (List.mem_cons_self a t)⟩

theorem cleanC_last {c : List Char} (h : CleanC c) :
    ∃ z, c.getLast? = some z ∧ plainChar z = true := by
  induction h with
  | single w hw hp =>
    exact ⟨w.getLast hw, (List.getLast?_eq_getLast w hw), hp _ (List.getLast_mem hw)⟩
  | cons w hw hp rest hr ih =>
    obtain ⟨z, hz, hpz⟩ := ih
    refine ⟨z, ?_, hpz⟩
    rw [List.getLast?_append_of_ne_nil w (List.cons_ne_nil ' ' rest)]
    rw [show ' ' :: rest = [' '] ++ rest from rfl,
      List.getLast?_append_of_ne_nil [' '] (cleanC_ne_nil hr)]
    exact hz

theorem wsAux_cons (b : Bool) (c : Char) (rest : List Char) :
    wsCollapseAux b (c :: rest) =
      if jsWs c then (if b then [] else [' ']) ++ wsCollapseAux true rest
      else c :: wsCollapseAux false rest := rfl

theorem wsAux_nonws (b : Bool) {c : Char} (hc : jsWs c = false) (rest : List Char) :
    wsCollapseAux b (c :: rest) = c :: wsCollapseAux false rest := by
  rw [wsAux_cons, if_neg (by simp [hc])]

theorem wsAux_true_ws {c : Char} (hc : jsWs c = true) (rest : List Char) :
    wsCollapseAux true (c :: rest) = wsCollapseAux true rest := by
  rw [wsAux_cons, if_pos hc]; rfl

theorem wsAux_false_ws {c : Char} (hc : jsWs c = true) (rest : List Char) :
    wsCollapseAux false (c :: rest) = ' ' :: wsCollapseAux true rest := by
  rw [wsAux_cons, if_pos hc]; rfl

theorem wsAux_skip (m : Nat) (rest : List Char) :
    wsCollapseAux true (List.replicate m ' ' ++ rest) = wsCollapseAux true rest := by
  induction m with
  | zero => rfl
  | succ k ih =>
    rw [List.replicate_succ, List.cons_append, wsAux_true_ws (by decide)]
    exact ih

theorem wsAux_false_pad (m : Nat) (rest : List Char) :
    wsCollapseAux false (List.replicate (m + 1) ' ' ++ rest)
      = ' ' :: wsCollapseAux true rest := by
  rw [List.replicate_succ, List.cons_append, wsAux_false_ws (by decide), wsAux_skip]

theorem replicate_space_shift (k : Nat) (rest : List Char) :
    List.replicate k ' ' ++ (' ' :: rest) = List.replicate (k + 1) ' ' ++ rest := by
  induction k with
  | zero => rfl
  | succ n ih => simp only [List.replicate_succ, List.cons_append, ih]

theorem wsAux_word : ∀ (w : List Char), w ≠ [] → (∀ c ∈ w, jsWs c = false) →
    ∀ (b : Bool) (rest : List Char),
      wsCollapseAux b (w ++ rest) = w ++ wsCollapseAux false rest := by
  intro w
  induction w with
  | nil => intro h; exact absurd rfl h
  | cons a t ih =>
    intro _ hw b rest
    rw [List.cons_append, wsAux_nonws b (hw a (List.mem_cons_self a t))]
    cases t with
    | nil => rfl
    | cons x xs =>
      rw [ih (by simp) (fun c hc => hw c (List.mem_cons_of_mem a hc)) false rest]
      rfl

theorem wsAux_clean {c : List Char} (h : CleanC c) :
    ∀ (b : Bool) (rest : List Char),
      wsCollapseAux b (c ++ rest) = c ++ wsCollapseAux false rest := by
  induction h with
  | single w hw hp =>
    exact wsAux_word w hw (fun x hx => plain_not_ws (hp x hx))
  | cons w hw hp rest' hr ih =>
    intro b rest
    rw [List.append_assoc, List.cons_append,
      wsAux_word w hw (fun x hx => plain_not_ws (hp x hx)) b _,
      wsAux_false_ws (by decide), ih true rest]
    simp

theorem pnAux_cons (p : List Char) (b : Bool) (c : Char) (rest : List Char) :
    pipeNormAux p b (c :: rest) =
      if c = '|' then ' ' :: '|' :: ' ' :: pipeNormAux [] true rest
      else if jsWs c then
        (if b then pipeNormAux [] true rest else pipeNormAux (p ++ [c]) false rest)
      else (if b then [] else p) ++ c :: pipeNormAux [] false rest := rfl

theorem pnAux_pipe (p : List Char) (b : Bool) (rest : List Char) :
    pipeNormAux p b ('|' :: rest) = ' ' :: '|' :: ' ' :: pipeNormAux [] true rest := by
  rw [pnAux_cons, if_pos rfl]

theorem pnAux_plain (p : List Char) (b : Bool) {c : Char} (hc : plainChar c = true)
    (rest : List Char) :
    pipeNormAux p b (c :: rest) = (if b then [] else p) ++ c :: pipeNormAux [] false rest := by
  obtain ⟨-, hpipe, hws⟩ := plain_spec hc
  rw [pnAux_cons, if_neg hpipe, if_neg (by simp [hws])]

theorem pnAux_true_ws {c : Char} (hc : jsWs c = true) (hp : c ≠ '|') (p rest : List Char) :
    pipeNormAux p true (c :: rest) = pipeNormAux [] true rest := by
  rw [pnAux_cons, if_neg hp, if_pos hc]; rfl

theorem pnAux_false_ws {c : Char} (hc : jsWs c = true) (hp : c ≠ '|') (p rest : List Char) :
    pipeNormAux p false (c :: rest) = pipeNormAux (p ++ [c]) false rest := by
  rw [pnAux_cons, if_neg hp, if_pos hc]; rfl

theorem pnAux_word : ∀ (w : List Char), w ≠ [] → (∀ c ∈ w, plainChar c = true) →
    ∀ (p : List Char) (b : Bool) (rest : List Char),
      pipeNormAux p b (w ++ rest) = (if b then [] else p) ++ w ++ pipeNormAux [] false rest := by
  intro w
  induction w with
  | nil => intro h; exact absurd rfl h
  | cons a t ih =>
    intro _ hw p b rest
    rw [List.cons_append, pnAux_plain p b (hw a (List.mem_cons_self a t))]
    cases t with
    | nil => simp
    | cons x xs =>
      rw [ih (by simp) (fun c hc => hw c (List.mem_cons_of_mem a hc)) [] false rest]
      simp

theorem pnAux_flush (q : List Char) {x : Char} (hx : plainChar x = true) (t : List Char) :
    pipeNormAux q false (x :: t) = q ++ pipeNormAux [] false (x :: t) := by
  rw [pnAux_plain q false hx, pnAux_plain [] false hx]
  simp

theorem pnAux_clean {c : List Char} (h : CleanC c) :
    ∀ (b : Bool) (rest : List Char),
      pipeNormAux [] b (c ++ rest) = c ++ pipeNormAux [] false rest := by
  induction h with
  | single w hw hp =>
    intro b rest
    rw [pnAux_word w hw hp [] b rest]
    simp
  | cons w hw hp rest' hr ih =>
    intro b rest
    rw [List.append_assoc, List.cons_append, pnAux_word w hw hp [] b _,
      pnAux_false_ws (by decide) (by decide) []]
    simp only [List.nil_append]
    obtain ⟨x, t, hx, hpx⟩ := cleanC_head hr
    rw [show rest' ++ rest = x :: (t ++ rest) from by rw [hx]; rfl,
      pnAux_flush [' '] hpx,
      show x :: (t ++ rest) = rest' ++ rest from by rw [hx]; rfl,
      ih false rest]
    simp

theorem intercalate_one (sep a : List Char) : List.intercalate sep [a] = a := by
  simp [List.intercalate, List.intersperse]

theorem intercalate_twoplus (sep a b : List Char) (t : List (List Char)) :
    List.intercalate sep (a :: b :: t) = a ++ sep ++ List.intercalate sep (b :: t) := by
  simp [List.intercalate, List.intersperse, List.append_assoc]

theorem wsAux_body : ∀ (ps cs : List (List Char)), List.Forall₂ PadC ps cs → ps ≠ [] →
    ' ' :: wsCollapseAux true (List.intercalate [' ', '|', ' '] ps ++ [' ', '|'])
      = canonBody cs := by
  intro ps
  induction ps with
  | nil => intro cs _ hne; exact absurd rfl hne
  | cons p ps' ih =>
    intro cs h _
    cases h with
    | cons hpc htail =>
      rename_i c cs'
      obtain ⟨hcc, k, hk⟩ := hpc
      cases ps' with
      | nil =>
        cases htail
        rw [intercalate_one]
        subst hk
        rcases hcc with rfl | hcc
        · simp only [List.nil_append]
          rw [show ([' ', '|'] : List Char) = ' ' :: ['|'] from rfl,
            replicate_space_shift, wsAux_skip]
          decide
        · rw [List.append_assoc,
            show (List.replicate k ' ' ++ [' ', '|'] : List Char)
              = List.replicate (k + 1) ' ' ++ ['|'] from by
                rw [show ([' ', '|'] : List Char) = ' ' :: ['|'] from rfl, replicate_space_shift],
            wsAux_clean hcc true, wsAux_false_pad]
          have hpipe : wsCollapseAux true ['|'] = ['|'] := by decide
          rw [hpipe]
          simp [canonBody, canonSeg, cleanC_ne_nil hcc]
      | cons p2 ps'' =>
        rw [intercalate_twoplus]
        subst hk
        have hih := ih cs' htail (by simp)
        rcases hcc with rfl | hcc
        · simp only [List.nil_append, List.append_assoc, List.cons_append]
          rw [replicate_space_shift, wsAux_skip, wsAux_nonws true (by decide),
            wsAux_false_ws (by decide)]
          rw [show List.intercalate [' ', '|', ' '] (p2 :: ps'') ++ ' ' :: '|' :: []
              = List.intercalate [' ', '|', ' '] (p2 :: ps'') ++ [' ', '|'] from rfl, hih]
          simp [canonBody, canonSeg]
        · simp only [List.append_assoc, List.cons_append]
          rw [wsAux_clean hcc true, replicate_space_shift, wsAux_false_pad,
            wsAux_nonws true (by decide), wsAux_false_ws (by decide)]
          simp only [List.nil_append]
          rw [hih]
          simp [canonBody, canonSeg, cleanC_ne_nil hcc]

theorem pnAux_body : ∀ (cs : List (List Char)), (∀ c ∈ cs, c = [] ∨ CleanC c) → cs ≠ [] →
    ' ' :: pipeNormAux [] true (canonBody cs) = canon2Body cs ++ [' '] := by
  intro cs
  induction cs with
  | nil => intro _ h; exact absurd rfl h
  | cons c cs' ih =>
    intro hc _
    have hcc := hc c (List.mem_cons_self c cs')
    cases cs' with
    | nil =>
      rcases hcc with rfl | hcc
      · decide
      · simp only [canonBody, canonSeg, if_neg (cleanC_ne_nil hcc), List.append_nil,
          canon2Body, List.cons_append]
        rw [pnAux_true_ws (by decide) (by decide), pnAux_clean hcc true]
        have hend : pipeNormAux [] false [' ', '|'] = [' ', '|', ' '] := by decide
        rw [hend]
        simp
    | cons c2 cs'' =>
      have hih := ih (fun x hx => hc x (List.mem_cons_of_mem c hx)) (by simp)
      rcases hcc with rfl | hcc
      · show ' ' :: pipeNormAux [] true (canonSeg [] ++ canonBody (c2 :: cs''))
          = canon2Body ([] :: c2 :: cs'') ++ [' ']
        rw [show canonSeg ([] : List Char) = [' ', '|'] from rfl]
        simp only [List.cons_append, List.nil_append]
        rw [pnAux_true_ws (by decide) (by decide), pnAux_pipe, hih]
        show (' ' :: ([] ++ [' ', '|'])) ++ canon2Body (c2 :: cs'') ++ [' ']
          = canon2Body ([] :: c2 :: cs'') ++ [' ']
        simp [canon2Body]
      · show ' ' :: pipeNormAux [] true (canonSeg c ++ canonBody (c2 :: cs''))
          = canon2Body (c :: c2 :: cs'') ++ [' ']
        rw [show canonSeg c = ' ' :: (c ++ [' ', '|']) from if_neg (cleanC_ne_nil hcc)]
        simp only [List.cons_append, List.append_assoc]
        rw [pnAux_true_ws (by decide) (by decide)]
        simp only [List.nil_append]
        rw [pnAux_clean hcc true, pnAux_false_ws (by decide) (by decide), pnAux_pipe, hih]
        simp [canon2Body, List.append_assoc]

theorem forall₂_mem_left {α β : Type} {R : α → β → Prop} :
    ∀ {ps : List α} {cs : List β}, List.Forall₂ R ps cs → ∀ p ∈ ps, ∃ c ∈ cs, R p c := by
  intro ps cs h
  induction h with
  | nil => intro p hp; simp at hp
  | cons h1 h2 ih =>
    intro p hp
    rcases List.mem_cons.mp hp with rfl | hp'
    · exact ⟨_, List.mem_cons_self _ _, h1⟩
    · obtain ⟨c, hc, hr⟩ := ih p hp'
      exact ⟨c, List.mem_cons_of_mem _ hc, hr⟩

theorem forall₂_mem_right {α β : Type} {R : α → β → Prop} :
    ∀ {ps : List α} {cs : List β}, List.Forall₂ R ps cs → ∀ c ∈ cs, ∃ p ∈ ps, R p c := by
  intro ps cs h
  induction h with
  | nil => intro c hc; simp at hc
  | cons h1 h2 ih =>
    intro c hc
    rcases List.mem_cons.mp hc with rfl | hc'
    · exact ⟨_, List.mem_cons_self _ _, h1⟩
    · obtain ⟨p, hp, hr⟩ := ih c hc'
      exact ⟨p, List.mem_cons_of_mem _ hp, hr⟩

theorem intercalate_mem : ∀ (ps : List (List Char)) (x : Char),
    x ∈ List.intercalate [' ', '|', ' '] ps → x = ' ' ∨ x = '|' ∨ ∃ p ∈ ps, x ∈ p := by
  intro ps
  induction ps with
  | nil => intro x h; simp [List.intercalate, List.intersperse] at h
  | cons a t ih =>
    cases t with
    | nil =>
      rw [intercalate_one]
      intro x h
      exact Or.inr (Or.inr ⟨a, List.mem_cons_self a [], h⟩)
    | cons b t' =>
      rw [intercalate_twoplus]
      intro x h
      rcases List.mem_append.mp h with h1 | h1
      · rcases List.mem_append.mp h1 with h2 | h2
        · exact Or.inr (Or.inr ⟨a, List.mem_cons_self a _, h2⟩)
        · rcases List.mem_cons.mp h2 with rfl | h3
          · exact Or.inl rfl
          rcases List.mem_cons.mp h3 with rfl | h4
          · exact Or.inr (Or.inl rfl)
          rcases List.mem_cons.mp h4 with rfl | h5
          · exact Or.inl rfl
          · simp at h5
      · rcases ih x h1 with h2 | h2 | ⟨p, hp, hxp⟩
        · exact Or.inl h2
        · exact Or.inr (Or.inl h2)
        · exact Or.inr (Or.inr ⟨p, List.mem_cons_of_mem a hp, hxp⟩)

theorem renderLine_mem (ps : List (List Char)) (x : Char) (h : x ∈ renderLine ps) :
    x = '|' ∨ x = ' ' ∨ ∃ p ∈ ps, x ∈ p := by
  unfold renderLine at h
  rcases List.mem_cons.mp h with rfl | h1
  · exact Or.inl rfl
  rcases List.mem_cons.mp h1 with rfl | h2
  · exact Or.inr (Or.inl rfl)
  rcases List.mem_append.mp h2 with h3 | h3
  · rcases intercalate_mem ps x h3 with h4 | h4 | h4
    · exact Or.inr (Or.inl h4)
    · exact Or.inl h4
    · exact Or.inr (Or.inr h4)
  · rcases List.mem_cons.mp h3 with rfl | h4
    · exact Or.inr (Or.inl rfl)
    rcases List.mem_cons.mp h4 with rfl | h5
    · exact Or.inl rfl
    · simp at h5

theorem renderLine_no_lt (ps cs : List (List Char)) (h : List.Forall₂ PadC ps cs) :
    ∀ x ∈ renderLine ps, x ≠ '<' := by
  intro x hx
  rcases renderLine_mem ps x hx with rfl | rfl | ⟨p, hp, hxp⟩
  · decide
  · decide
  · obtain ⟨c, _, ⟨hcc, k, rfl⟩⟩ := forall₂_mem_left h p hp
    rcases List.mem_append.mp hxp with hxc | hxr
    · rcases hcc with rfl | hcl
      · simp at hxc
      · rcases cleanC_mem hcl x hxc with hpl | rfl
        · exact (plain_spec hpl).1
        · decide
    · rw [List.eq_of_mem_replicate hxr]; decide

theorem canon2Body_concat : ∀ (cs : List (List Char)), cs ≠ [] →
    ∃ B, canon2Body cs = B ++ ['|'] := by
  intro cs
  induction cs with
  | nil => intro h; exact absurd rfl h
  | cons c cs' ih =>
    intro _
    cases cs' with
    | nil => exact ⟨' ' :: (c ++ [' ']), by simp [canon2Body]⟩
    | cons c2 cs'' =>
      obtain ⟨B, hB⟩ := ih (by simp)
      refine ⟨(' ' :: (c ++ [' ', '|'])) ++ B, ?_⟩
      show (' ' :: (c ++ [' ', '|'])) ++ canon2Body (c2 :: cs'') = _
      rw [hB, List.append_assoc]

theorem canon2_getLast (cs : List (List Char)) (hne : cs ≠ []) :
    (canon2 cs).getLast? = some '|' := by
  obtain ⟨B, hB⟩ := canon2Body_concat cs hne
  unfold canon2
  rw [hB, show ('|' :: (B ++ ['|']) : List Char) = ('|' :: B) ++ ['|'] from by simp]
  exact List.getLast?_concat _

theorem jsTrim_wrap (c : List Char)
    (hh : ∀ a, c.head? = some a → jsWs a = false)
    (hl : ∀ z, c.getLast? = some z → jsWs z = false) :
    jsTrim (' ' :: (c ++ [' '])) = c := by
  cases c with
  | nil => decide
  | cons a t =>
    have ha : jsWs a = false := hh a rfl
    obtain ⟨z, hz, hzw⟩ : ∃ z, (a :: t).getLast? = some z ∧ jsWs z = false := by
      have h1 : (a :: t).getLast? = some ((a :: t).getLast (by simp)) :=
        List.getLast?_eq_getLast _ _
      exact ⟨_, h1, hl _ h1⟩
    unfold jsTrim
    have h1 : List.dropWhile jsWs (' ' :: ((a :: t) ++ [' '])) = (a :: t) ++ [' '] := by
      rw [List.dropWhile_cons, if_pos (by decide), List.cons_append, List.dropWhile_cons,
        if_neg (by simp [ha])]
    rw [h1]
    have h2 : ((a :: t) ++ [' ']).reverse = ' ' :: (a :: t).reverse := by
      simp
    rw [h2, List.dropWhile_cons, if_pos (by decide)]
    have h3 : List.dropWhile jsWs (a :: t).reverse = (a :: t).reverse := by
      cases hrev : (a :: t).reverse with
      | nil => simp at hrev
      | cons y ys =>
        have hy : (a :: t).reverse.head? = some y := by rw [hrev]; rfl
        rw [List.head?_reverse] at hy
        rw [hz] at hy
        injection hy with hy'
        rw [List.dropWhile_cons, if_neg (by simp [hy' ▸ hzw])]
    rw [h3, List.reverse_reverse]

theorem jsTrim_piece (c : List Char) (h : c = [] ∨ CleanC c) :
    jsTrim (' ' :: (c ++ [' '])) = c := by
  apply jsTrim_wrap
  · intro a ha
    rcases h with rfl | hcl
    · simp at ha
    · obtain ⟨a', t, hct, hpa⟩ := cleanC_head hcl
      rw [hct] at ha
      injection ha with ha'
      exact ha' ▸ plain_not_ws hpa
  · intro z hz
    rcases h with rfl | hcl
    · simp at hz
    · obtain ⟨z', hz', hpz⟩ := cleanC_last hcl
      rw [hz'] at hz
      injection hz with hz2
      exact hz2 ▸ plain_not_ws hpz

theorem cleanTableLine_rendered (ps cs : List (List Char)) (h : List.Forall₂ PadC ps cs)
    (hne : ps ≠ []) :
    cleanTableLine (renderLine ps) = canon2 cs := by
  have hlt := renderLine_no_lt ps cs h
  have hcs : cs ≠ [] := by
    cases h with
    | nil => exact absurd rfl hne
    | cons h1 h2 => simp
  have hclean2 : ∀ c ∈ cs, c = [] ∨ CleanC c := by
    intro c hc
    obtain ⟨p, _, hrel⟩ := forall₂_mem_right h c hc
    exact hrel.1
  unfold cleanTableLine
  rw [fixCommaBr_id _ hlt, brToSpace_id _ hlt, uUnwrap_id _ hlt, emStrip_id _ hlt,
    strongStrip_id _ hlt]
  have hws : wsCollapse (renderLine ps) = canonLine cs := by
    unfold wsCollapse renderLine
    rw [wsAux_nonws false (by decide), wsAux_false_ws (by decide)]
    exact congrArg (List.cons '|') (wsAux_body ps cs h hne)
  rw [hws]
  have hpn : pipeNormalize (canonLine cs) = ' ' :: (canon2 cs ++ [' ']) := by
    unfold pipeNormalize canonLine
    rw [pnAux_pipe]
    have hbody := pnAux_body cs hclean2 hcs
    unfold canon2 at hbody ⊢
    simp only [List.cons_append]
    rw [hbody]
  rw [hpn]
  exact jsTrim_wrap (canon2 cs) (fun a ha => by injection ha with ha'; rw [← ha']; decide)
    (fun z hz => by rw [canon2_getLast cs hcs] at hz; injection hz with hz'; rw [← hz']; decide)

theorem jsSplit_ne_nil (sep : Char) : ∀ (l : List Char), jsSplit sep l ≠ [] := by
  intro l
  induction l with
  | nil => simp [jsSplit]
  | cons c rest ih =>
    cases hr : jsSplit sep rest with
    | nil => exact absurd hr ih
    | cons piece pieces =>
      show (match jsSplit sep rest with
            | [] => [[]]
            | piece :: pieces =>
              if c = sep then [] :: piece :: pieces else (c :: piece) :: pieces) ≠ []
      rw [hr]
      show (if c = sep then [] :: piece :: pieces else (c :: piece) :: pieces) ≠ []
      by_cases hc : c = sep
      · rw [if_pos hc]; simp
      · rw [if_neg hc]; simp

theorem jsSplit_cons_eq (sep c : Char) (rest piece : List Char)
    (pieces : List (List Char)) (h : jsSplit sep rest = piece :: pieces) :
    jsSplit sep (c :: rest)
      = if c = sep then [] :: piece :: pieces else (c :: piece) :: pieces := by
  show (match jsSplit sep rest with
        | [] => [[]]
        | piece :: pieces =>
          if c = sep then [] :: piece :: pieces else (c :: piece) :: pieces) = _
  rw [h]

theorem jsSplit_chunk (sep : Char) : ∀ (x : List Char), (∀ c ∈ x, c ≠ sep) →
    ∀ (rest : List Char), jsSplit sep (x ++ sep :: rest) = x :: jsSplit sep rest := by
  intro x
  induction x with
  | nil =>
    intro _ rest
    cases hr : jsSplit sep rest with
    | nil => exact absurd hr (jsSplit_ne_nil sep rest)
    | cons piece pieces =>
      rw [List.nil_append, jsSplit_cons_eq sep sep rest piece pieces hr, if_pos rfl]
  | cons c t ih =>
    intro h rest
    have hr := ih (fun d hd => h d (List.mem_cons_of_mem c hd)) rest
    cases hr2 : jsSplit sep (t ++ sep :: rest) with
    | nil => exact absurd hr2 (jsSplit_ne_nil _ _)
    | cons piece pieces =>
      rw [hr2] at hr
      rw [List.cons_append, jsSplit_cons_eq sep c (t ++ sep :: rest) piece pieces hr2,
        if_neg (h c (List.mem_cons_self c t))]
      injection hr with h1 h2
      rw [h1, h2]

theorem canon2_no_pipe_cells (cs : List (List Char)) (h : ∀ c ∈ cs, c = [] ∨ CleanC c) :
    ∀ c ∈ cs, ∀ ch ∈ c, ch ≠ '|' := by
  intro c hc ch hch
  rcases h c hc with rfl | hcl
  · simp at hch
  · rcases cleanC_mem hcl ch hch with hp | rfl
    · exact (plain_spec hp).2.1
    · decide

theorem jsSplit_canon2Body : ∀ (cs : List (List Char)), (∀ c ∈ cs, ∀ ch ∈ c, ch ≠ '|') →
    jsSplit '|' (canon2Body cs) = (cs.map (fun c => ' ' :: (c ++ [' ']))) ++ [[]] := by
  intro cs
  induction cs with
  | nil => intro _; rfl
  | cons c cs' ih =>
    intro h
    have hshape : canon2Body (c :: cs')
        = (' ' :: (c ++ [' '])) ++ '|' :: canon2Body cs' := by
      show (' ' :: (c ++ [' ', '|'])) ++ canon2Body cs' = _
      simp
    rw [hshape, jsSplit_chunk '|' _ ?nosep _, ih (fun x hx => h x (List.mem_cons_of_mem c hx))]
    · rfl
    case nosep =>
      intro d hd
      rcases List.mem_cons.mp hd with rfl | hd'
      · decide
      rcases List.mem_append.mp hd' with hd2 | hd2
      · exact h c (List.mem_cons_self c cs') d hd2
      · simp only [List.mem_singleton] at hd2
        rw [hd2]; decide

theorem jsSplit_canon2 (cs : List (List Char)) (hnp : ∀ c ∈ cs, ∀ ch ∈ c, ch ≠ '|') :
    jsSplit '|' (canon2 cs) = [] :: ((cs.map (fun c => ' ' :: (c ++ [' ']))) ++ [[]]) := by
  have hb := jsSplit_canon2Body cs hnp
  cases hm : (cs.map (fun c => ' ' :: (c ++ [' ']))) ++ [[]] with
  | nil => simp at hm
  | cons p ps =>
    rw [hm] at hb
    unfold canon2
    rw [jsSplit_cons_eq '|' '|' _ p ps hb, if_pos rfl]

theorem enumFrom_filter_mid (n : Nat) :
    ∀ (mid : List (List Char)) (j : Nat), 1 ≤ j → j + mid.length = n →
      ((List.enumFrom j (mid ++ [[]])).filter
          (fun ic => !(ic.2.isEmpty && (ic.1 == 0 || ic.1 == n)))).map Prod.snd = mid := by
  intro mid
  induction mid with
  | nil =>
    intro j hj hn
    simp only [List.length_nil, Nat.add_zero] at hn
    subst hn
    have hj0 : (j == 0) = false := by simp; omega
    show (([(j, ([] : List Char))]).filter _).map Prod.snd = []
    rw [List.filter_cons]
    simp [hj0]
  | cons m mid' ih =>
    intro j hj hn
    simp only [List.length_cons] at hn
    have hj0 : (j == 0) = false := by simp; omega
    have hjn : (j == n) = false := by simp; omega
    rw [List.cons_append]
    show (((j, m) :: List.enumFrom (j + 1) (mid' ++ [[]])).filter _).map Prod.snd = m :: mid'
    rw [List.filter_cons]
    simp only [hj0, hjn, Bool.or_self, Bool.and_false, Bool.not_false, eq_self_iff_true,
      if_true]
    rw [List.map_cons]
    congr 1
    exact ih (j + 1) (by omega) (by omega)

theorem lineCells_canon2 (cs : List (List Char)) (h : ∀ c ∈ cs, c = [] ∨ CleanC c) :
    lineCells (canon2 cs) = cs := by
  have hnp := canon2_no_pipe_cells cs h
  have htrim : ((jsSplit '|' (canon2 cs)).map jsTrim) = [] :: (cs ++ [[]]) := by
    rw [jsSplit_canon2 cs hnp]
    simp only [List.map_cons, List.map_append, List.map_map]
    refine congrArg₂ _ rfl (congrArg₂ _ ?_ rfl)
    have : ∀ c ∈ cs, (jsTrim ∘ fun c => ' ' :: (c ++ [' '])) c = id c := by
      intro c hc
      simpa using jsTrim_piece c (h c hc)
    rw [List.map_congr_left this, List.map_id]
  simp only [lineCells]
  rw [htrim]
  have hlen : (([] : List Char) :: (cs ++ [[]])).length - 1 = cs.length + 1 := by simp
  rw [hlen]
  show (((0, ([] : List Char)) :: List.enumFrom 1 (cs ++ [[]])).filter _).map Prod.snd = cs
  rw [List.filter_cons]
  have hpred : (!(([] : List Char).isEmpty
      && ((0 == 0) || (0 == cs.length + 1)))) = false := by simp
  rw [hpred, if_neg (by simp)]
  exact enumFrom_filter_mid (cs.length + 1) cs 1 (by omega) (by omega)

theorem isSepLine_decomp (body : List Char) :
    isSepLine ('|' :: body) = (match body.reverse.dropWhile jsWs with
      | '|' :: mid => mid.all (fun c => jsWs c || c = '-' || c = '|')
      | _ => false) := by
  unfold isSepLine
  rw [List.dropWhile_cons, if_neg (by decide)]
  rfl

theorem canon2Body_mem : ∀ (cs : List (List Char)) (ch : Char), ch ∈ canon2Body cs →
    ch = ' ' ∨ ch = '|' ∨ ∃ c ∈ cs, ch ∈ c := by
  intro cs
  induction cs with
  | nil => intro ch h; simp [canon2Body] at h
  | cons c cs' ih =>
    intro ch h
    rcases List.mem_append.mp h with h1 | h1
    · rcases List.mem_cons.mp h1 with rfl | h2
      · exact Or.inl rfl
      rcases List.mem_append.mp h2 with h3 | h3
      · exact Or.inr (Or.inr ⟨c, List.mem_cons_self c cs', h3⟩)
      rcases List.mem_cons.mp h3 with rfl | h4
      · exact Or.inl rfl
      rcases List.mem_cons.mp h4 with rfl | h5
      · exact Or.inr (Or.inl rfl)
      · simp at h5
    · rcases ih ch h1 with h2 | h2 | ⟨c', hc', hch'⟩
      · exact Or.inl h2
      · exact Or.inr (Or.inl h2)
      · exact Or.inr (Or.inr ⟨c', List.mem_cons_of_mem c hc', hch'⟩)

theorem mem_canon2Body_of : ∀ (cs : List (List Char)) (c : List Char), c ∈ cs →
    ∀ ch ∈ c, ch ∈ canon2Body cs := by
  intro cs
  induction cs with
  | nil => intro c hc; simp at hc
  | cons c0 cs' ih =>
    intro c hc ch hch
    rcases List.mem_cons.mp hc with rfl | hc'
    · exact List.mem_append_left _ (List.mem_cons_of_mem ' '
        (List.mem_append_left _ hch))
    · exact List.mem_append_right _ (ih c hc' ch hch)

theorem isSepLine_canon2_all (cs : List (List Char)) (hne : cs ≠ []) (B : List Char)
    (hB : canon2Body cs = B ++ ['|']) :
    isSepLine (canon2 cs) = B.reverse.all (fun c => jsWs c || c = '-' || c = '|') := by
  unfold canon2
  rw [isSepLine_decomp, hB, List.reverse_append, List.reverse_singleton,
    List.singleton_append, List.dropWhile_cons, if_neg (by decide)]
  rfl

theorem isSepLine_canon2_dashy (cs : List (List Char)) (hne : cs ≠ [])
    (hd : ∀ c ∈ cs, ∀ ch ∈ c, ch = '-' ∨ ch = ' ') :
    isSepLine (canon2 cs) = true := by
  obtain ⟨B, hB⟩ := canon2Body_concat cs hne
  rw [isSepLine_canon2_all cs hne B hB, List.all_eq_true]
  intro ch hch
  have hch' : ch ∈ canon2Body cs := by
    rw [hB]
    exact List.mem_append_left _ (List.mem_reverse.mp hch)
  rcases canon2Body_mem cs ch hch' with rfl | rfl | ⟨c, hc, hchc⟩
  · decide
  · decide
  · rcases hd c hc ch hchc with rfl | rfl <;> decide

theorem isSepLine_canon2_witness (cs : List (List Char)) (c : List Char) (ch : Char)
    (hc : c ∈ cs) (hch : ch ∈ c) (hplain : plainChar ch = true) (hdash : ch ≠ '-') :
    isSepLine (canon2 cs) = false := by
  have hne : cs ≠ [] := by intro hcon; subst hcon; simp at hc
  obtain ⟨B, hB⟩ := canon2Body_concat cs hne
  rw [isSepLine_canon2_all cs hne B hB]
  have hmem : ch ∈ canon2Body cs := mem_canon2Body_of cs c hc ch hch
  rw [hB] at hmem
  obtain ⟨hlt, hpipe, hws⟩ := plain_spec hplain
  rcases List.mem_append.mp hmem with hBmem | hpm
  · have hnot : ¬ (B.reverse.all (fun c => jsWs c || c = '-' || c = '|') = true) := by
      rw [List.all_eq_true]
      intro hall
      have hv := hall ch (List.mem_reverse.mpr hBmem)
      simp [hws, hdash, hpipe] at hv
    cases hval : B.reverse.all (fun c => jsWs c || c = '-' || c = '|') with
    | false => rfl
    | true => exact absurd hval hnot
  · simp only [List.mem_singleton] at hpm
    exact absurd hpm hpipe

theorem jsTrim_canon2_ne (cs : List (List Char)) :
    (jsTrim (canon2 cs)).isEmpty = false := by
  unfold jsTrim canon2
  rw [List.dropWhile_cons, if_neg (by decide)]
  have h1 : List.dropWhile jsWs ('|' :: canon2Body cs).reverse ≠ [] := by
    rw [Ne, List.dropWhile_eq_nil_iff]
    intro hall
    have hv := hall '|' (List.mem_reverse.mpr (List.mem_cons_self _ _))
    exact absurd hv (by decide)
  cases hdw : List.dropWhile jsWs ('|' :: canon2Body cs).reverse with
  | nil => exact absurd hdw h1
  | cons x xs => simp

theorem rowOfLine_canon2_kept (cs : List (List Char)) (h : ∀ c ∈ cs, c = [] ∨ CleanC c)
    (hne : cs ≠ [])
    (hw : ∃ c ∈ cs, ∃ ch ∈ c, ch ≠ '-' ∧ ch ≠ ' ') :
    rowOfLine (canon2 cs) = some cs := by
  obtain ⟨c, hc, ch, hch, hd, hsp⟩ := hw
  have hplain : plainChar ch = true := by
    rcases h c hc with rfl | hcl
    · simp at hch
    · rcases cleanC_mem hcl ch hch with hp | rfl
      · exact hp
      · exact absurd rfl hsp
  have hie : cs.isEmpty = false := by
    cases cs with
    | nil => exact absurd rfl hne
    | cons a b => rfl
  unfold rowOfLine
  rw [jsTrim_canon2_ne cs, isSepLine_canon2_witness cs c ch hc hch hplain hd,
    lineCells_canon2 cs h, hie]
  rfl

theorem rowOfLine_canon2_sep (cs : List (List Char)) (hne : cs ≠ [])
    (hd : ∀ c ∈ cs, ∀ ch ∈ c, ch = '-' ∨ ch = ' ') :
    rowOfLine (canon2 cs) = none := by
  unfold rowOfLine
  rw [isSepLine_canon2_dashy cs hne hd]
  simp

theorem fullRow_length (mc : Nat) (row : List (List Char)) :
    (fullRow mc row).length = mc := by simp [fullRow]

theorem fullRow_getD (mc : Nat) (row : List (List Char)) (col : Nat) (h : col < mc) :
    (fullRow mc row).getD col [] = row.getD col [] := by
  unfold fullRow
  rw [List.getD_eq_getElem _ _ (by simpa using h)]
  simp

theorem mem_fullRow {mc : Nat} {row : List (List Char)} {cell : List Char}
    (h : cell ∈ fullRow mc row) : cell ∈ row ∨ cell = [] := by
  unfold fullRow at h
  rcases List.mem_map.mp h with ⟨col, _, rfl⟩
  by_cases hlt : col < row.length
  · left
    rw [List.getD_eq_getElem _ _ hlt]
    exact List.getElem_mem hlt
  · right
    exact List.getD_eq_default _ _ (by omega)

theorem mem_fullRow_of_mem {mc : Nat} {row : List (List Char)} {cell : List Char}
    (hlen : row.length ≤ mc) (h : cell ∈ row) : cell ∈ fullRow mc row := by
  obtain ⟨n, hn⟩ := List.mem_iff_get.mp h
  unfold fullRow
  refine List.mem_map.mpr ⟨n.val, List.mem_range.mpr (by omega), ?_⟩
  rw [List.getD_eq_getElem _ _ n.isLt]
  simpa [List.get_eq_getElem] using hn

theorem getD_cell_clean {row : List (List Char)}
    (hclean : ∀ cell ∈ row, cell = [] ∨ CleanC cell) (col : Nat) :
    row.getD col [] = [] ∨ CleanC (row.getD col []) := by
  by_cases hlt : col < row.length
  · refine hclean _ ?_
    rw [List.getD_eq_getElem _ _ hlt]
    exact List.getElem_mem hlt
  · rw [List.getD_eq_default _ _ (by omega)]
    exact Or.inl rfl

theorem rowCellsFmt_forall₂ (rows : List (List (List Char))) (row : List (List Char))
    (hclean : ∀ cell ∈ row, cell = [] ∨ CleanC cell)
    (hfit : ∀ col, col < maxColumns rows →
      (((row.getD col []).length : Nat) : ℚ) ≤ (columnWidths rows).getD col 0) :
    List.Forall₂ PadC (rowCellsFmt (columnWidths rows) (maxColumns rows) row)
      (fullRow (maxColumns rows) row) := by
  unfold rowCellsFmt fullRow
  rw [List.forall₂_map_left_iff, List.forall₂_map_right_iff, List.forall₂_same]
  intro col hcol
  have hcol' : col < maxColumns rows := List.mem_range.mp hcol
  refine ⟨getD_cell_clean hclean col, ?_⟩
  have hq := hfit col hcol'
  unfold formatCell
  rw [if_pos hq]
  unfold padEnd
  exact ⟨_, rfl⟩

theorem rowOfLine_sepLine (ws : List ℚ) (hws : ws ≠ []) (h8 : ∀ w ∈ ws, (8 : ℚ) ≤ w) :
    rowOfLine (cleanTableLine (sepLine ws)) = none := by
  have hcells : ∀ p ∈ ws.map (fun w => List.replicate (⌊w⌋).toNat '-'), PadC p p := by
    intro p hp
    rcases List.mem_map.mp hp with ⟨w, hw, rfl⟩
    have hw8 : (8 : ℤ) ≤ ⌊w⌋ := Int.le_floor.mpr (by exact_mod_cast h8 w hw)
    have hpos : (⌊w⌋).toNat ≠ 0 := by omega
    refine ⟨Or.inr (CleanC.single _ ?_ ?_), 0, by simp⟩
    · simp [hpos]
    · intro c hc
      rw [List.eq_of_mem_replicate hc]
      decide
  have hf : List.Forall₂ PadC (ws.map (fun w => List.replicate (⌊w⌋).toNat '-'))
      (ws.map (fun w => List.replicate (⌊w⌋).toNat '-')) :=
    List.forall₂_same.mpr hcells
  have hne : ws.map (fun w => List.replicate (⌊w⌋).toNat '-') ≠ [] := by
    simpa using hws
  rw [show sepLine ws
      = renderLine (ws.map (fun w => List.replicate (⌊w⌋).toNat '-')) from rfl,
    cleanTableLine_rendered _ _ hf hne]
  apply rowOfLine_canon2_sep _ hne
  intro c hc ch hch
  rcases List.mem_map.mp hc with ⟨w, hw, rfl⟩
  exact Or.inl (List.eq_of_mem_replicate hch)

theorem rowOfLine_rendered (rows : List (List (List Char))) (row : List (List Char))
    (hclean : ∀ cell ∈ row, cell = [] ∨ CleanC cell)
    (hlen : row.length ≤ maxColumns rows)
    (hmc : 1 ≤ maxColumns rows)
    (hfit : ∀ col, col < maxColumns rows →
      (((row.getD col []).length : Nat) : ℚ) ≤ (columnWidths rows).getD col 0)
    (hdr : (∀ cell ∈ row, cell = []) ∨ ∃ cell ∈ row, ∃ ch ∈ cell, ch ≠ '-' ∧ ch ≠ ' ') :
    rowOfLine (cleanTableLine
        (renderLine (rowCellsFmt (columnWidths rows) (maxColumns rows) row)))
      = if (∀ cell ∈ row, cell = []) then none
        else some (fullRow (maxColumns rows) row) := by
  have hf := rowCellsFmt_forall₂ rows row hclean hfit
  have hne : rowCellsFmt (columnWidths rows) (maxColumns rows) row ≠ [] := by
    unfold rowCellsFmt
    simp only [Ne, List.map_eq_nil, List.range_eq_nil]
    omega
  rw [cleanTableLine_rendered _ _ hf hne]
  have hcleanF : ∀ c ∈ fullRow (maxColumns rows) row, c = [] ∨ CleanC c := by
    intro c hc
    rcases mem_fullRow hc with hmem | rfl
    · exact hclean c hmem
    · exact Or.inl rfl
  have hneF : fullRow (maxColumns rows) row ≠ [] := by
    intro hcon
    have hlf := fullRow_length (maxColumns rows) row
    rw [hcon] at hlf
    simp at hlf
    omega
  by_cases hE : ∀ cell ∈ row, cell = []
  · rw [if_pos hE]
    apply rowOfLine_canon2_sep _ hneF
    intro c hc ch hch
    rcases mem_fullRow hc with hmem | rfl
    · rw [hE c hmem] at hch; simp at hch
    · simp at hch
  · rw [if_neg hE]
    rcases hdr with hall | ⟨cell, hcell, ch, hch, hd, hsp⟩
    · exact absurd hall hE
    · apply rowOfLine_canon2_kept _ hcleanF hneF
      exact ⟨cell, mem_fullRow_of_mem hlen hcell, ch, hch, hd, hsp⟩

theorem renderRows_no_sep (ws : List ℚ) (mc : Nat) :
    ∀ (rs : List (List (List Char))) (i : Nat), i ≠ 0 →
      renderRows ws mc rs i = rs.map (fun r => renderLine (rowCellsFmt ws mc r)) := by
  intro rs
  induction rs with
  | nil => intro i _; rfl
  | cons r rs' ih =>
    intro i hi
    show (renderLine (rowCellsFmt ws mc r) :: (if i = 0 then [sepLine ws] else []))
        ++ renderRows ws mc rs' (i + 1) = _
    rw [if_neg hi, ih (i + 1) (by omega)]
    rfl

theorem parseRows_eq (L : List (List Char)) : parseRows L = L.filterMap rowOfLine := rfl

theorem pass2_tail (rows : List (List (List Char)))
    (hclean : ∀ row ∈ rows, ∀ cell ∈ row, cell = [] ∨ CleanC cell)
    (hlen : ∀ row ∈ rows, row.length ≤ maxColumns rows)
    (hmc : 1 ≤ maxColumns rows)
    (hfit : ∀ row ∈ rows, ∀ col, col < maxColumns rows →
      (((row.getD col []).length : Nat) : ℚ) ≤ (columnWidths rows).getD col 0)
    (hdr : ∀ row ∈ rows,
      (∀ cell ∈ row, cell = []) ∨ ∃ cell ∈ row, ∃ ch ∈ cell, ch ≠ '-' ∧ ch ≠ ' ') :
    ∀ (rs : List (List (List Char))), (∀ r ∈ rs, r ∈ rows) →
      ((rs.map (fun r =>
          renderLine (rowCellsFmt (columnWidths rows) (maxColumns rows) r))).map
            cleanTableLine).filterMap rowOfLine
        = rs.filterMap (fun row =>
            if (∀ cell ∈ row, cell = []) then none
            else some (fullRow (maxColumns rows) row)) := by
  intro rs
  induction rs with
  | nil => intro _; rfl
  | cons x xs ih =>
    intro hsub
    have hx := hsub x (List.mem_cons_self x xs)
    have hline := rowOfLine_rendered rows x (hclean x hx) (hlen x hx) hmc (hfit x hx)
      (hdr x hx)
    have htl := ih (fun r hr => hsub r (List.mem_cons_of_mem x hr))
    rw [List.map_cons, List.map_cons]
    by_cases hE : ∀ cell ∈ x, cell = []
    · rw [List.filterMap_cons_none (by rw [hline, if_pos hE]),
        List.filterMap_cons_none (by rw [if_pos hE]), htl]
    · rw [List.filterMap_cons_some (by rw [hline, if_neg hE]),
        List.filterMap_cons_some (by rw [if_neg hE]), htl]

theorem pass2_rows (rows : List (List (List Char)))
    (hne : rows ≠ [])
    (hclean : ∀ row ∈ rows, ∀ cell ∈ row, cell = [] ∨ CleanC cell)
    (hlen : ∀ row ∈ rows, row.length ≤ maxColumns rows)
    (hmc : 1 ≤ maxColumns rows)
    (hfit : ∀ row ∈ rows, ∀ col, col < maxColumns rows →
      (((row.getD col []).length : Nat) : ℚ) ≤ (columnWidths rows).getD col 0)
    (hdr : ∀ row ∈ rows,
      (∀ cell ∈ row, cell = []) ∨ ∃ cell ∈ row, ∃ ch ∈ cell, ch ≠ '-' ∧ ch ≠ ' ') :
    parseRows ((renderRows (columnWidths rows) (maxColumns rows) rows 0).map cleanTableLine)
      = rows.filterMap (fun row =>
          if (∀ cell ∈ row, cell = []) then none
          else some (fullRow (maxColumns rows) row)) := by
  obtain ⟨r0, rest, rfl⟩ : ∃ r0 rest, rows = r0 :: rest := by
    cases rows with
    | nil => exact absurd rfl hne
    | cons a b => exact ⟨a, b, rfl⟩
  have hr0mem := List.mem_cons_self r0 rest
  have hrr : renderRows (columnWidths (r0 :: rest)) (maxColumns (r0 :: rest)) (r0 :: rest) 0
      = renderLine (rowCellsFmt (columnWidths (r0 :: rest)) (maxColumns (r0 :: rest)) r0)
        :: sepLine (columnWidths (r0 :: rest))
        :: rest.map (fun r => renderLine (rowCellsFmt (columnWidths (r0 :: rest))
            (maxColumns (r0 :: rest)) r)) := by
    show (renderLine _ :: (if (0 : Nat) = 0 then [sepLine _] else []))
        ++ renderRows _ _ rest 1 = _
    rw [if_pos rfl, renderRows_no_sep _ _ rest 1 (by omega)]
    rfl
  rw [hrr, parseRows_eq, List.map_cons, List.map_cons]
  have h8 : ∀ w ∈ columnWidths (r0 :: rest), (8 : ℚ) ≤ w := by
    intro w hw
    rcases List.mem_map.mp hw with ⟨col, _, rfl⟩
    exact columnWidth_ge_eight _ _
  have hwsne : columnWidths (r0 :: rest) ≠ [] := by
    unfold columnWidths
    simp only [Ne, List.map_eq_nil, List.range_eq_nil]
    omega
  have hsep := rowOfLine_sepLine _ hwsne h8
  have hr0 := rowOfLine_rendered (r0 :: rest) r0 (hclean r0 hr0mem) (hlen r0 hr0mem) hmc
    (hfit r0 hr0mem) (hdr r0 hr0mem)
  have htail := pass2_tail (r0 :: rest) hclean hlen hmc hfit hdr rest
    (fun r hr => List.mem_cons_of_mem r0 hr)
  by_cases hE : ∀ cell ∈ r0, cell = []
  · rw [List.filterMap_cons_none (by rw [hr0, if_pos hE]),
      List.filterMap_cons_none hsep,
      List.filterMap_cons_none (by rw [if_pos hE])]
    exact htail
  · rw [List.filterMap_cons_some (by rw [hr0, if_neg hE]),
      List.filterMap_cons_none hsep,
      List.filterMap_cons_some (by rw [if_neg hE]), htail]

theorem foldl_max_le : ∀ (rs : List (List (List Char))) (a : Nat),
    a ≤ rs.foldl (fun m row => max m row.length) a := by
  intro rs
  induction rs with
  | nil => intro a; exact le_refl a
  | cons r rs' ih =>
    intro a
    exact le_trans (le_max_left a r.length) (ih (max a r.length))

theorem maxColumns_ge (rows : List (List (List Char))) (row : List (List Char))
    (h : row ∈ rows) : row.length ≤ maxColumns rows := by
  have key : ∀ (rs : List (List (List Char))) (r : List (List Char)), r ∈ rs →
      ∀ (a : Nat), r.length ≤ rs.foldl (fun m row => max m row.length) a := by
    intro rs
    induction rs with
    | nil => intro r hr; simp at hr
    | cons x xs ih =>
      intro r hr a
      rcases List.mem_cons.mp hr with rfl | hr'
      · exact le_trans (le_max_right a r.length) (foldl_max_le xs (max a r.length))
      · exact ih r hr' (max a x.length)
  exact key rows row h 0

theorem maxColumns_const (mc : Nat) (rs : List (List (List Char))) (hne : rs ≠ [])
    (hall : ∀ x ∈ rs, x.length = mc) : maxColumns rs = mc := by
  have key : ∀ (rs : List (List (List Char))), (∀ x ∈ rs, x.length = mc) → ∀ (a : Nat),
      rs.foldl (fun m row => max m row.length) a = if rs = [] then a else max a mc := by
    intro rs
    induction rs with
    | nil => intro _ a; rfl
    | cons x xs ih =>
      intro h a
      show xs.foldl _ (max a x.length) = _
      rw [h x (List.mem_cons_self x xs), ih (fun y hy => h y (List.mem_cons_of_mem x hy))
        (max a mc)]
      by_cases hxs : xs = []
      · rw [if_pos hxs, if_neg (by simp)]
      · rw [if_neg hxs, if_neg (by simp), max_assoc, max_self]
  unfold maxColumns
  rw [key rs hall 0, if_neg hne]
  exact Nat.zero_max mc

theorem colCellLengths_cons (row : List (List Char)) (rest : List (List (List Char)))
    (col : Nat) :
    colCellLengths (row :: rest) col
      = if (row.getD col []).isEmpty then colCellLengths rest col
        else (row.getD col []).length :: colCellLengths rest col := by
  by_cases hval : row.getD col [] = []
  · have h1 : row[col]?.getD [] = ([] : List Char) := by
      rw [← List.getD_eq_getElem?_getD]; exact hval
    rw [if_pos (by rw [hval]; rfl)]
    simp [colCellLengths, h1]
  · have hfalse : (row.getD col []).isEmpty = false := by
      cases hrow : row.getD col [] with
      | nil => exact absurd hrow hval
      | cons a t => rfl
    have h1 : ¬ (row[col]?.getD [] = ([] : List Char)) := by
      rw [← List.getD_eq_getElem?_getD]; exact hval
    rw [if_neg (by simpa using h1)]
    simp [colCellLengths, h1]

theorem colCellLengths_pass2 (mc : Nat) :
    ∀ (rows : List (List (List Char))) (col : Nat), col < mc →
      colCellLengths (rows.filterMap (fun row =>
          if (∀ cell ∈ row, cell = []) then none else some (fullRow mc row))) col
        = colCellLengths rows col := by
  intro rows
  induction rows with
  | nil => intro col _; rfl
  | cons row rest ih =>
    intro col hcol
    have hfr : (fullRow mc row).getD col [] = row.getD col [] := fullRow_getD mc row col hcol
    by_cases hE : ∀ cell ∈ row, cell = []
    · have hcell : row.getD col [] = [] := by
        by_cases hlt : col < row.length
        · exact hE _ (by rw [List.getD_eq_getElem _ _ hlt]; exact List.getElem_mem hlt)
        · exact List.getD_eq_default _ _ (by omega)
      rw [List.filterMap_cons_none (by rw [if_pos hE]), ih col hcol,
        colCellLengths_cons row rest col, if_pos (by rw [hcell]; rfl)]
    · rw [List.filterMap_cons_some (by rw [if_neg hE]),
        colCellLengths_cons (fullRow mc row) _ col, colCellLengths_cons row rest col, hfr,
        ih col hcol]

theorem columnWidth_congr (A B : List (List (List Char))) (col : Nat)
    (h : colCellLengths A col = colCellLengths B col) :
    columnWidth A col = columnWidth B col := by
  unfold columnWidth
  rw [h]

theorem widthN_le_width (rows : List (List (List Char))) (col : Nat)
    (h : col < maxColumns rows) (len : Nat)
    (hle : len ≤ (columnWidthsN rows).getD col 0) :
    ((len : Nat) : ℚ) ≤ (columnWidths rows).getD col 0 := by
  rw [columnWidthsN_getD rows col h, ← columnWidth_floor_toNat rows col] at hle
  rw [columnWidths_getD rows col h]
  have h8 := columnWidth_ge_eight rows col
  have h0 : (0 : ℤ) ≤ ⌊columnWidth rows col⌋ :=
    Int.le_floor.mpr (le_trans (by norm_num) h8)
  have hcast : (((⌊columnWidth rows col⌋).toNat : ℕ) : ℚ)
      = ((⌊columnWidth rows col⌋ : ℤ) : ℚ) := by
    exact_mod_cast congrArg (fun (z : ℤ) => (z : ℚ)) (Int.toNat_of_nonneg h0)
  calc ((len : Nat) : ℚ) ≤ (((⌊columnWidth rows col⌋).toNat : ℕ) : ℚ) := by exact_mod_cast hle
    _ = ((⌊columnWidth rows col⌋ : ℤ) : ℚ) := hcast
    _ ≤ columnWidth rows col := Int.floor_le _

theorem cleanCBF_sound : ∀ (f : Nat) (l : List Char), cleanCBF f l = true → CleanC l := by
  intro f
  induction f with
  | zero => intro l h; exact absurd h (by simp [cleanCBF])
  | succ n ih =>
    intro l h
    unfold cleanCBF at h
    rw [Bool.and_eq_true] at h
    obtain ⟨hw, hrest⟩ := h
    have hwne : l.takeWhile plainChar ≠ [] := by
      intro hcon
      rw [hcon] at hw
      simp at hw
    have hwp : ∀ c ∈ l.takeWhile plainChar, plainChar c = true :=
      fun c hc => List.mem_takeWhile_imp hc
    have hl : l = l.takeWhile plainChar ++ l.dropWhile plainChar :=
      (List.takeWhile_append_dropWhile _ _).symm
    cases hd : l.dropWhile plainChar with
    | nil =>
      rw [hd, List.append_nil] at hl
      rw [hl]
      exact CleanC.single _ hwne hwp
    | cons d rest =>
      rw [hd] at hrest
      simp only [List.isEmpty_cons, List.headD_cons, List.tail_cons, Bool.false_or,
        Bool.and_eq_true, beq_iff_eq] at hrest
      obtain ⟨rfl, hcb⟩ := hrest
      rw [hl, hd]
      exact CleanC.cons _ hwne hwp rest (ih rest hcb)

theorem cleanCB_sound (l : List Char) (h : cleanCB l = true) : CleanC l :=
  cleanCBF_sound l.length l h

/-- C4 (counterexample): on `docC4` no cell is truncated during the first
pass — every parsed cell's length is at most its planned (floored) column
width — yet applying the pipeline to its own output changes the rendered
column widths from `[12, 8]` to `[8, 8]`: the first pass renders the
dash-only cell's row with a trailing pipe, so the second pass reads that
row (and the synthesized separator) as separator lines and drops them,
leaving a table with different column statistics. -/
theorem width_idempotence_counterexample :
    improvedCleanMarkerOutput docC4 = docC4b ∧
    (∀ row ∈ parseRows ((jsSplit '\n' (strChars docC4)).map cleanTableLine),
      ∀ col, col < maxColumns (parseRows ((jsSplit '\n' (strChars docC4)).map cleanTableLine)) →
        (row.getD col []).length ≤
          (columnWidthsN
            (parseRows ((jsSplit '\n' (strChars docC4)).map cleanTableLine))).getD col 0) ∧
    (columnWidths (parseRows ((jsSplit '\n' (strChars docC4)).map cleanTableLine))).map
        (fun w => (⌊w⌋).toNat) = [12, 8] ∧
    (columnWidths (parseRows ((jsSplit '\n' (strChars docC4b)).map cleanTableLine))).map
        (fun w => (⌊w⌋).toNat) = [8, 8] ∧
    improvedCleanMarkerOutput docC4b
      = "| abc      | de       |\n| -------- | -------- |" ∧
    ([12, 8] : List ℕ) ≠ [8, 8] := by
  refine ⟨by decide, by decide, ?_, ?_, by decide, by decide⟩
  · rw [← columnWidthsN_eq_map]; decide
  · rw [← columnWidthsN_eq_map]; decide

/-- C4 (amended): on a table region whose parsed Rows are already in the
renderer's output form — every cell is empty or a clean single-spaced
sequence of plain words (no `<`, `|` or exotic whitespace), every row
either is all-empty or has a cell with a character other than `-` and
space, and no cell exceeds its floored planned width (no truncation) —
re-running the pipeline on the rendered region reproduces the same parsed
table statistics: the second-pass ColumnPlan equals the first-pass one. -/
theorem width_idempotence_amended (tl : List (List Char))
    (h2 : 2 ≤ tl.length)
    (hne : parseRows tl ≠ [])
    (hclean : ∀ row ∈ parseRows tl, ∀ cell ∈ row, cell = [] ∨ CleanC cell)
    (hdash : ∀ row ∈ parseRows tl,
      (∀ cell ∈ row, cell = []) ∨ ∃ cell ∈ row, ∃ ch ∈ cell, ch ≠ '-' ∧ ch ≠ ' ')
    (hfit : ∀ row ∈ parseRows tl, ∀ col, col < maxColumns (parseRows tl) →
      (row.getD col []).length ≤ (columnWidthsN (parseRows tl)).getD col 0)
    (hnonempty : ∃ row ∈ parseRows tl, ∃ cell ∈ row, cell ≠ []) :
    columnWidths (parseRows ((formatTableRegion tl).map cleanTableLine))
      = columnWidths (parseRows tl) := by
  have hmc : 1 ≤ maxColumns (parseRows tl) := by
    obtain ⟨row, hrow, cell, hcell, _⟩ := hnonempty
    have h1 := maxColumns_ge (parseRows tl) row hrow
    have h2 : 1 ≤ row.length := List.length_pos.mpr (List.ne_nil_of_mem hcell)
    omega
  have hlen : ∀ row ∈ parseRows tl, row.length ≤ maxColumns (parseRows tl) :=
    fun row hrow => maxColumns_ge (parseRows tl) row hrow
  have hfitQ : ∀ row ∈ parseRows tl, ∀ col, col < maxColumns (parseRows tl) →
      (((row.getD col []).length : Nat) : ℚ) ≤ (columnWidths (parseRows tl)).getD col 0 :=
    fun row hrow col hcol =>
      widthN_le_width (parseRows tl) col hcol _ (hfit row hrow col hcol)
  have hie : (parseRows tl).isEmpty = false := by
    cases hrows : parseRows tl with
    | nil => exact absurd hrows hne
    | cons a b => rfl
  have hftr : formatTableRegion tl
      = renderRows (columnWidths (parseRows tl)) (maxColumns (parseRows tl))
          (parseRows tl) 0 := by
    unfold formatTableRegion
    rw [if_neg (by omega), if_neg (by rw [hie]; simp)]
  rw [hftr, pass2_rows (parseRows tl) hne hclean hlen hmc hfitQ hdash]
  have hsurv : ∃ row ∈ parseRows tl, ¬ (∀ cell ∈ row, cell = []) := by
    obtain ⟨row, hrow, cell, hcell, hcne⟩ := hnonempty
    exact ⟨row, hrow, fun hall => hcne (hall cell hcell)⟩
  have hmcEq : maxColumns ((parseRows tl).filterMap (fun row =>
      if (∀ cell ∈ row, cell = []) then none
      else some (fullRow (maxColumns (parseRows tl)) row))) = maxColumns (parseRows tl) := by
    apply maxColumns_const
    · obtain ⟨row, hrow, hnE⟩ := hsurv
      exact List.ne_nil_of_mem (List.mem_filterMap.mpr ⟨row, hrow, by rw [if_neg hnE]⟩)
    · intro x hx
      rcases List.mem_filterMap.mp hx with ⟨row, _, hg⟩
      by_cases hE : ∀ cell ∈ row, cell = []
      · rw [if_pos hE] at hg; exact absurd hg (by simp)
      · rw [if_neg hE] at hg
        injection hg with hg'
        rw [← hg']
        exact fullRow_length _ _
  unfold columnWidths
  rw [hmcEq]
  apply List.map_congr_left
  intro col hcol
  exact columnWidth_congr _ _ col
    (colCellLengths_pass2 (maxColumns (parseRows tl)) (parseRows tl) col
      (List.mem_range.mp hcol))

/-- Witness for the amended claim C4 on the clean two-row region `tlC4`. -/
theorem width_idempotence_amended_witness :
    columnWidths (parseRows ((formatTableRegion tlC4).map cleanTableLine))
      = columnWidths (parseRows tlC4) :=
  width_idempotence_amended tlC4 (by decide) (by decide)
    (by
      have h : ∀ row ∈ parseRows tlC4, ∀ cell ∈ row, cell = [] ∨ cleanCB cell = true := by
        decide
      intro row hrow cell hcell
      exact (h row hrow cell hcell).imp_right (cleanCB_sound cell))
    (by decide) (by decide) (by decide)

end FileConv
